import Mathlib

/-!
Verification of the placement driver's region tree and operator controller.

Part 1: the region tree (src/server/core/region_tree.go).

Keys are byte strings compared with `bytes.Compare` (unsigned lexicographic
order); we model them as `List ℕ` with the lexicographic linear order.
An empty `endKey` denotes "+infinity".

The btree keyed by region start key (with `Less` comparing start keys only)
is modelled as a list of regions kept in ascending start-key order; the btree
traversals `AscendGreaterOrEqual` / `DescendLessOrEqual` become filters of
that sorted list, and `ReplaceOrInsert` / `Delete` become ordered insertion
(replacing an equal-key entry) and deletion of the equal-key entry.
-/

abbrev Key := List ℕ

/-- A region: id, key range `[startKey, endKey)` (empty `endKey` = +infinity),
approximate size and write rates, mirroring the fields of `RegionInfo` that
`region_tree.go` reads. Write rates are `float64` in the source; we model the
additive arithmetic on them over `ℚ`. -/
structure RegionInfo where
  rid : ℕ
  startKey : Key
  endKey : Key
  approximateSize : ℤ
  writeBytesRate : ℚ
  writeKeysRate : ℚ
deriving DecidableEq, Repr

/-- `regionItem.Contains` from region_tree.go: `key >= start && (end == "" || key < end)`. -/
def RegionInfo.Contains (r : RegionInfo) (key : Key) : Bool :=
  decide (r.startKey ≤ key) && (r.endKey.isEmpty || decide (key < r.endKey))

/-- The region tree: entries in ascending start-key order plus the live
aggregates `totalSize`, `totalWriteBytesRate`, `totalWriteKeysRate`. -/
structure regionTree where
  entries : List RegionInfo
  totalSize : ℤ
  totalWriteBytesRate : ℚ
  totalWriteKeysRate : ℚ
deriving DecidableEq, Repr

/-- `newRegionTree`: empty tree with zero aggregates. -/
def newRegionTree : regionTree :=
  { entries := [], totalSize := 0, totalWriteBytesRate := 0, totalWriteKeysRate := 0 }

/-- `regionTree.length`. -/
def regionTree.length (t : regionTree) : ℕ := t.entries.length

/-- `regionTree.find`: `DescendLessOrEqual` from the query item takes the
greatest entry whose start key is `≤` the query's start key; the result is
returned only if it contains the query's start key. -/
def regionTree.find (t : regionTree) (region : RegionInfo) : Option RegionInfo :=
  match (t.entries.filter (fun e => decide (e.startKey ≤ region.startKey))).getLast? with
  | none => none
  | some result => if result.Contains region.startKey then some result else none

/-- `regionTree.getOverlaps`: start from `find` (or the query region itself if
not found) and ascend, stopping at the first entry whose start key is `≥` the
query's end key (an empty end key never stops). -/
def regionTree.getOverlaps (t : regionTree) (region : RegionInfo) : List RegionInfo :=
  let anchor : Key :=
    match t.find region with
    | some result => result.startKey
    | none => region.startKey
  (t.entries.filter (fun e => decide (anchor ≤ e.startKey))).takeWhile
    (fun over => !(!region.endKey.isEmpty && decide (region.endKey ≤ over.startKey)))

/-- `btree.Delete`: remove the entry whose start key equals `k` (items compare
equal iff their start keys are equal). -/
def deleteByKey (k : Key) : List RegionInfo → List RegionInfo
  | [] => []
  | e :: rest => if e.startKey = k then rest else e :: deleteByKey k rest

/-- `btree.ReplaceOrInsert`: ordered insertion by start key, replacing an
entry with an equal start key. -/
def replaceOrInsert (item : RegionInfo) : List RegionInfo → List RegionInfo
  | [] => [item]
  | e :: rest =>
    if item.startKey < e.startKey then item :: e :: rest
    else if item.startKey = e.startKey then item :: rest
    else e :: replaceOrInsert item rest

/-- `regionTree.update`: add the new region's statistics, compute the overlaps,
delete each overlap while subtracting its statistics, then insert the region.
Returns the updated tree together with the displaced overlaps. -/
def regionTree.update (t : regionTree) (item : RegionInfo) : regionTree × List RegionInfo :=
  let t1 : regionTree :=
    { t with
      totalSize := t.totalSize + item.approximateSize
      totalWriteBytesRate := t.totalWriteBytesRate + item.writeBytesRate
      totalWriteKeysRate := t.totalWriteKeysRate + item.writeKeysRate }
  let overlaps := t1.getOverlaps item
  let t2 := overlaps.foldl
    (fun acc old =>
      { acc with
        entries := deleteByKey old.startKey acc.entries
        totalSize := acc.totalSize - old.approximateSize
        totalWriteBytesRate := acc.totalWriteBytesRate - old.writeBytesRate
        totalWriteKeysRate := acc.totalWriteKeysRate - old.writeKeysRate })
    t1
  ({ t2 with entries := replaceOrInsert item t2.entries }, overlaps)

/-- `regionTree.remove`: do nothing on an empty tree, when `find` fails, or when
the located entry's id differs; otherwise delete the located entry while
subtracting the *argument* region's statistics (exactly as the source does). -/
def regionTree.remove (t : regionTree) (region : RegionInfo) : regionTree :=
  if t.length = 0 then t
  else
    match t.find region with
    | none => t
    | some result =>
      if result.rid ≠ region.rid then t
      else
        { entries := deleteByKey result.startKey t.entries
          totalSize := t.totalSize - region.approximateSize
          totalWriteBytesRate := t.totalWriteBytesRate - region.writeBytesRate
          totalWriteKeysRate := t.totalWriteKeysRate - region.writeKeysRate }

/-- `regionTree.TotalSize`: returns 0 when the tree is empty. -/
def regionTree.TotalSize (t : regionTree) : ℤ :=
  if t.length = 0 then 0 else t.totalSize

-- Sanity checks of the embedding on the spec's scenario S1/S2 shapes.
example :
    (newRegionTree.update
      { rid := 1, startKey := [], endKey := [98], approximateSize := 4,
        writeBytesRate := 1, writeKeysRate := 1 }).1.entries.length = 1 := by decide

example :
    ((newRegionTree.update
        { rid := 1, startKey := [], endKey := [98], approximateSize := 4,
          writeBytesRate := 1, writeKeysRate := 1 }).1.update
      { rid := 4, startKey := [], endKey := [], approximateSize := 9,
        writeBytesRate := 0, writeKeysRate := 0 }).1.totalSize = 9 := by decide

/-! ### Sequences of mutating calls -/

/-- One mutating call on the region tree. -/
inductive TreeOp where
  | upd (r : RegionInfo)
  | rem (r : RegionInfo)
deriving DecidableEq, Repr

/-- Apply one mutating call. -/
def applyOp (t : regionTree) : TreeOp → regionTree
  | .upd r => (t.update r).1
  | .rem r => t.remove r

/-- Run a sequence of mutating calls. -/
def runOps (t : regionTree) (ops : List TreeOp) : regionTree := ops.foldl applyOp t

/-- A region is a well-formed key range of the data model: its end key is
empty (+infinity) or strictly greater than its start key. -/
def validRegion (r : RegionInfo) : Bool :=
  r.endKey.isEmpty || decide (r.startKey < r.endKey)

/-- Intersection of the stored entry `e`'s range with the query `region`'s
range `[start, end)`, an empty end key meaning +infinity on either side. -/
def overlapsWith (region e : RegionInfo) : Bool :=
  (region.endKey.isEmpty || decide (e.startKey < region.endKey)) &&
  (e.endKey.isEmpty || decide (region.startKey < e.endKey))

/-- Ordering/non-overlap relation between two entries: `a` starts strictly
before `b` and ends at or before `b`'s start (so an infinite `a.endKey` is
excluded). -/
def InvPair (a b : RegionInfo) : Prop :=
  a.startKey < b.startKey ∧ a.endKey ≠ [] ∧ a.endKey ≤ b.startKey

instance (a b : RegionInfo) : Decidable (InvPair a b) := by unfold InvPair; infer_instance

/-- Structural invariant of reachable trees built from valid regions:
entries are strictly sorted by start key, pairwise non-overlapping, and
individually valid. -/
def TreeInv (t : regionTree) : Prop :=
  t.entries.Pairwise InvPair ∧ ∀ e ∈ t.entries, validRegion e = true

/-! ### Generic list lemmas for the embedding -/

theorem deleteByKey_sublist (k : Key) : ∀ l : List RegionInfo, (deleteByKey k l).Sublist l := by
  intro l
  induction l with
  | nil => simp [deleteByKey]
  | cons e rest ih =>
    by_cases h : e.startKey = k
    · simp [deleteByKey, h]
    · simpa [deleteByKey, h] using ih.cons₂ e

theorem mem_replaceOrInsert (a item : RegionInfo) :
    ∀ (l : List RegionInfo), a ∈ replaceOrInsert item l → a = item ∨ a ∈ l := by
  intro l
  induction l with
  | nil => simp [replaceOrInsert]
  | cons e rest ih =>
    intro h
    by_cases h1 : item.startKey < e.startKey
    · simp only [replaceOrInsert, if_pos h1, List.mem_cons] at h
      rcases h with h | h | h
      · exact Or.inl h
      · exact Or.inr (by simp [h])
      · exact Or.inr (by simp [h])
    · by_cases h2 : item.startKey = e.startKey
      · simp only [replaceOrInsert, if_neg h1, if_pos h2, List.mem_cons] at h
        rcases h with h | h
        · exact Or.inl h
        · exact Or.inr (by simp [h])
      · simp only [replaceOrInsert, if_neg h1, if_neg h2, List.mem_cons] at h
        rcases h with h | h
        · exact Or.inr (by simp [h])
        · rcases ih h with h' | h'
          · exact Or.inl h'
          · exact Or.inr (by simp [h'])

theorem replaceOrInsert_perm (item : RegionInfo) :
    ∀ (l : List RegionInfo), (∀ e ∈ l, e.startKey ≠ item.startKey) →
      (replaceOrInsert item l).Perm (item :: l) := by
  intro l
  induction l with
  | nil => intro _; simp [replaceOrInsert]
  | cons e rest ih =>
    intro h
    by_cases h1 : item.startKey < e.startKey
    · simp [replaceOrInsert, if_pos h1]
    · have h2 : item.startKey ≠ e.startKey := fun hh => h e (by simp) hh.symm
      simp only [replaceOrInsert, if_neg h1, if_neg h2]
      have step := (ih (fun f hf => h f (by simp [hf]))).cons e
      exact step.trans (List.Perm.swap item e rest)

/-- The last element of a list is an upper bound under any pairwise relation. -/
theorem getLast?_rel {R : RegionInfo → RegionInfo → Prop} :
    ∀ {l : List RegionInfo} {e : RegionInfo}, l.Pairwise R → l.getLast? = some e →
      ∀ f ∈ l, f = e ∨ R f e := by
  intro l
  induction l with
  | nil => intro e _ h; simp at h
  | cons x xs ih =>
    intro e hpw hlast f hf
    rcases List.pairwise_cons.mp hpw with ⟨hx, hxs⟩
    cases hxs' : xs with
    | nil =>
      subst hxs'
      simp at hlast hf
      subst hlast hf
      exact Or.inl rfl
    | cons y ys =>
      subst hxs'
      rw [List.getLast?_cons_cons] at hlast
      rcases List.mem_cons.mp hf with hfx | hfxs
      · subst hfx
        exact Or.inr (hx e (List.mem_of_mem_getLast? hlast))
      · exact ih hxs hlast f hfxs

/-- Two members of a pairwise-`InvPair` list with comparable start keys are
related by `InvPair`. -/
theorem pairwise_total {l : List RegionInfo} (hpw : l.Pairwise InvPair) :
    ∀ a ∈ l, ∀ b ∈ l, a.startKey < b.startKey → InvPair a b := by
  induction l with
  | nil => intro a ha; simp at ha
  | cons x xs ih =>
    rcases List.pairwise_cons.mp hpw with ⟨hx, hxs⟩
    intro a ha b hb hab
    rcases List.mem_cons.mp ha with hax | haxs
    · subst hax
      rcases List.mem_cons.mp hb with hbx | hbxs
      · subst hbx; exact absurd hab (lt_irrefl _)
      · exact hx b hbxs
    · rcases List.mem_cons.mp hb with hbx | hbxs
      · subst hbx
        have := (hx a haxs).1
        exact absurd (this.trans hab) (lt_irrefl _)
      · exact ih hxs a haxs b hbxs hab

/-! ### Characterising `find` and `getOverlaps` -/

theorem bool_eq_of_iff {a b : Bool} (h : (a = true) ↔ (b = true)) : a = b := by
  cases a <;> cases b <;> simp_all

theorem Contains_iff {r : RegionInfo} {k : Key} :
    r.Contains k = true ↔ r.startKey ≤ k ∧ (r.endKey = [] ∨ k < r.endKey) := by
  simp [RegionInfo.Contains, List.isEmpty_iff]

theorem validRegion_iff {r : RegionInfo} :
    validRegion r = true ↔ r.endKey = [] ∨ r.startKey < r.endKey := by
  simp [validRegion, List.isEmpty_iff]

theorem overlapsWith_iff {region e : RegionInfo} :
    overlapsWith region e = true ↔
      (region.endKey = [] ∨ e.startKey < region.endKey) ∧
      (e.endKey = [] ∨ region.startKey < e.endKey) := by
  simp [overlapsWith, List.isEmpty_iff]

theorem startKey_inj {l : List RegionInfo} (hpw : l.Pairwise InvPair) :
    ∀ a ∈ l, ∀ b ∈ l, a.startKey = b.startKey → a = b := by
  intro a ha b hb hab
  by_contra hne
  rcases lt_trichotomy a.startKey b.startKey with h | h | h
  · exact absurd hab (ne_of_lt h)
  · -- same start keys: use pairwise strictness along list positions
    clear hab
    induction l with
    | nil => simp at ha
    | cons x xs ih =>
      rcases List.pairwise_cons.mp hpw with ⟨hx, hxs⟩
      rcases List.mem_cons.mp ha with hax | haxs
      · rcases List.mem_cons.mp hb with hbx | hbxs
        · exact hne (hax.trans hbx.symm)
        · subst hax
          exact absurd ((hx b hbxs).1) (by rw [h]; exact lt_irrefl _)
      · rcases List.mem_cons.mp hb with hbx | hbxs
        · subst hbx
          exact absurd ((hx a haxs).1) (by rw [h]; exact lt_irrefl _)
        · exact ih hxs haxs hbxs
  · exact absurd hab (ne_of_gt h)

theorem find_eq_some {t : regionTree} {r e : RegionInfo} (h : t.find r = some e) :
    e ∈ t.entries ∧ e.Contains r.startKey = true ∧ e.startKey ≤ r.startKey ∧
      (t.entries.filter (fun f => decide (f.startKey ≤ r.startKey))).getLast? = some e := by
  unfold regionTree.find at h
  cases hg : (t.entries.filter fun f => decide (f.startKey ≤ r.startKey)).getLast? with
  | none => rw [hg] at h; simp at h
  | some res =>
    rw [hg] at h
    by_cases hc : res.Contains r.startKey = true
    · have heq : res = e := by simpa [hc] using h
      subst heq
      have hm := List.mem_of_mem_getLast? hg
      rw [List.mem_filter] at hm
      exact ⟨hm.1, hc, by simpa using hm.2, rfl⟩
    · simp [hc] at h

theorem find_none_not_contains {t : regionTree} {r : RegionInfo}
    (hInv : TreeInv t) (h : t.find r = none) :
    ∀ f ∈ t.entries, ¬ f.Contains r.startKey = true := by
  intro f hf hc
  rcases Contains_iff.mp hc with ⟨hle, hcov⟩
  have hfil : f ∈ t.entries.filter (fun g => decide (g.startKey ≤ r.startKey)) :=
    List.mem_filter.mpr ⟨hf, by simpa using hle⟩
  unfold regionTree.find at h
  cases hg : (t.entries.filter fun g => decide (g.startKey ≤ r.startKey)).getLast? with
  | none =>
    rw [List.getLast?_eq_none_iff] at hg
    rw [hg] at hfil
    simp at hfil
  | some res =>
    rw [hg] at h
    have hcres : ¬ res.Contains r.startKey = true := by
      intro hcr; simp [hcr] at h
    have hresmem := List.mem_of_mem_getLast? hg
    rw [List.mem_filter] at hresmem
    have hresle : res.startKey ≤ r.startKey := by simpa using hresmem.2
    have hpwlt : (t.entries.filter (fun g => decide (g.startKey ≤ r.startKey))).Pairwise
        (fun a b : RegionInfo => a.startKey < b.startKey) :=
      (hInv.1.imp (fun hab => hab.1)).filter _
    rcases getLast?_rel hpwlt hg f hfil with heq | hlt
    · exact hcres (heq ▸ hc)
    · have hip := pairwise_total hInv.1 f hf res hresmem.1 hlt
      rcases hcov with hend | hlt2
      · exact hip.2.1 hend
      · exact absurd ((hlt2.trans_le hip.2.2).trans_le hresle) (lt_irrefl _)

theorem takeWhile_filter_aux (p : RegionInfo → Bool)
    (hmono : ∀ a b : RegionInfo, a.startKey < b.startKey → p b = true → p a = true) :
    ∀ l : List RegionInfo, l.Pairwise (fun a b : RegionInfo => a.startKey < b.startKey) →
      l.takeWhile p = l.filter p := by
  intro l
  induction l with
  | nil => simp
  | cons x xs ih =>
    intro hpw
    rcases List.pairwise_cons.mp hpw with ⟨hx, hxs⟩
    by_cases hp : p x = true
    · simp [List.takeWhile_cons, List.filter_cons, hp, ih hxs]
    · have hfil : xs.filter p = [] :=
        List.filter_eq_nil_iff.mpr (fun y hy hpy => hp (hmono x y (hx y hy) hpy))
      simp [List.takeWhile_cons, List.filter_cons, hp, hfil]

theorem cont_iff {r : RegionInfo} {k : Key} :
    (!(!r.endKey.isEmpty && decide (r.endKey ≤ k))) = true ↔ (r.endKey = [] ∨ k < r.endKey) := by
  by_cases h : r.endKey = []
  · simp [h]
  · simp [h, List.isEmpty_iff, not_le]

theorem getOverlaps_def (t : regionTree) (r : RegionInfo) :
    t.getOverlaps r =
      (t.entries.filter (fun e => decide
          ((match t.find r with
            | some result => result.startKey
            | none => r.startKey) ≤ e.startKey))).takeWhile
        (fun over => !(!r.endKey.isEmpty && decide (r.endKey ≤ over.startKey))) := rfl

/-- On a tree satisfying the structural invariant, `getOverlaps` returns
exactly the stored entries whose key range intersects the valid query
region's range. -/
theorem getOverlaps_eq {t : regionTree} {r : RegionInfo} (hInv : TreeInv t) :
    t.getOverlaps r = t.entries.filter (overlapsWith r) := by
  have hpwlt : t.entries.Pairwise (fun a b : RegionInfo => a.startKey < b.startKey) :=
    hInv.1.imp (fun hab => hab.1)
  have hmono : ∀ a b : RegionInfo, a.startKey < b.startKey →
      (!(!r.endKey.isEmpty && decide (r.endKey ≤ b.startKey))) = true →
      (!(!r.endKey.isEmpty && decide (r.endKey ≤ a.startKey))) = true := by
    intro a b hab hb
    rw [cont_iff] at hb ⊢
    rcases hb with hb | hb
    · exact Or.inl hb
    · exact Or.inr (hab.trans hb)
  rw [getOverlaps_def]
  cases hf : t.find r with
  | some a =>
    rcases find_eq_some hf with ⟨hamem, hacont, hale, _⟩
    rw [takeWhile_filter_aux _ hmono _ (hpwlt.filter _), List.filter_filter]
    refine List.filter_congr ?_
    intro e he
    apply bool_eq_of_iff
    simp only [Bool.and_eq_true, decide_eq_true_iff, cont_iff, overlapsWith_iff]
    constructor
    · rintro ⟨hc1, hc2⟩
      refine ⟨hc1, ?_⟩
      by_cases hend : e.endKey = []
      · exact Or.inl hend
      · have hevalid : e.startKey < e.endKey := by
          rcases validRegion_iff.mp (hInv.2 e he) with h | h
          · exact absurd h hend
          · exact h
        rcases eq_or_lt_of_le hc2 with haeq | halt
        · have : a = e := startKey_inj hInv.1 a hamem e he haeq
          rw [this] at hacont
          rcases (Contains_iff.mp hacont).2 with h | h
          · exact absurd h hend
          · exact Or.inr h
        · have hip := pairwise_total hInv.1 a hamem e he halt
          rcases (Contains_iff.mp hacont).2 with h | h
          · exact absurd h hip.2.1
          · exact Or.inr ((h.trans_le hip.2.2).trans hevalid)
    · rintro ⟨hc1, hc2⟩
      refine ⟨hc1, ?_⟩
      by_contra hnle
      push_neg at hnle
      have hip := pairwise_total hInv.1 e he a hamem hnle
      rcases hc2 with h | h
      · exact hip.2.1 h
      · exact absurd ((h.trans_le hip.2.2).trans_le hale) (lt_irrefl _)
  | none =>
    have hnc := find_none_not_contains hInv hf
    rw [takeWhile_filter_aux _ hmono _ (hpwlt.filter _), List.filter_filter]
    refine List.filter_congr ?_
    intro e he
    apply bool_eq_of_iff
    simp only [Bool.and_eq_true, decide_eq_true_iff, cont_iff, overlapsWith_iff]
    constructor
    · rintro ⟨hc1, hc2⟩
      refine ⟨hc1, ?_⟩
      by_cases hend : e.endKey = []
      · exact Or.inl hend
      · have hevalid : e.startKey < e.endKey := by
          rcases validRegion_iff.mp (hInv.2 e he) with h | h
          · exact absurd h hend
          · exact h
        exact Or.inr (hc2.trans_lt hevalid)
    · rintro ⟨hc1, hc2⟩
      refine ⟨hc1, ?_⟩
      by_contra hnle
      push_neg at hnle
      exact hnc e he (Contains_iff.mpr ⟨le_of_lt hnle, hc2⟩)

/-! ### Aggregate consistency machinery -/

/-- The aggregate-consistency property of the spec: each aggregate equals the
sum of the corresponding statistic over the stored entries. -/
def Agg (t : regionTree) : Prop :=
  t.totalSize = (t.entries.map (·.approximateSize)).sum ∧
  t.totalWriteBytesRate = (t.entries.map (·.writeBytesRate)).sum ∧
  t.totalWriteKeysRate = (t.entries.map (·.writeKeysRate)).sum

/-- A `remove` call is statistics-accurate: if it locates an entry with the
argument's id, the argument carries that entry's statistics. -/
def removeOk (t : regionTree) (r : RegionInfo) : Bool :=
  match t.find r with
  | none => true
  | some e =>
    if e.rid = r.rid then
      decide (r.approximateSize = e.approximateSize) &&
      decide (r.writeBytesRate = e.writeBytesRate) &&
      decide (r.writeKeysRate = e.writeKeysRate)
    else true

/-- A call sequence is well-formed: every `update` argument is a valid region
and every `remove` argument is statistics-accurate for the tree state it
meets. -/
def goodOps (t : regionTree) : List TreeOp → Bool
  | [] => true
  | .upd r :: rest => validRegion r && goodOps (t.update r).1 rest
  | .rem r :: rest => removeOk t r && goodOps (t.remove r) rest

theorem foldl_del_spec (ov : List RegionInfo) :
    ∀ t : regionTree,
      (ov.foldl (fun acc old =>
        { acc with
          entries := deleteByKey old.startKey acc.entries
          totalSize := acc.totalSize - old.approximateSize
          totalWriteBytesRate := acc.totalWriteBytesRate - old.writeBytesRate
          totalWriteKeysRate := acc.totalWriteKeysRate - old.writeKeysRate }) t)
      = { entries := ov.foldl (fun l old => deleteByKey old.startKey l) t.entries
          totalSize := t.totalSize - (ov.map (·.approximateSize)).sum
          totalWriteBytesRate := t.totalWriteBytesRate - (ov.map (·.writeBytesRate)).sum
          totalWriteKeysRate := t.totalWriteKeysRate - (ov.map (·.writeKeysRate)).sum } := by
  induction ov with
  | nil => intro t; simp
  | cons o rest ih =>
    intro t
    rw [List.foldl_cons, ih, List.foldl_cons]
    simp [sub_sub]

theorem getOverlaps_congr {t s : regionTree} (r : RegionInfo) (h : t.entries = s.entries) :
    t.getOverlaps r = s.getOverlaps r := by
  have hf : t.find r = s.find r := by
    unfold regionTree.find
    rw [h]
  unfold regionTree.getOverlaps
  rw [hf, h]

/-- `update` in closed form: displaced overlaps, the delete fold on entries,
and the aggregate adjustments. -/
theorem update_spec (t : regionTree) (r : RegionInfo) :
    t.update r =
      ({ entries := replaceOrInsert r
            ((t.getOverlaps r).foldl (fun l old => deleteByKey old.startKey l) t.entries)
         totalSize := t.totalSize + r.approximateSize -
            ((t.getOverlaps r).map (·.approximateSize)).sum
         totalWriteBytesRate := t.totalWriteBytesRate + r.writeBytesRate -
            ((t.getOverlaps r).map (·.writeBytesRate)).sum
         totalWriteKeysRate := t.totalWriteKeysRate + r.writeKeysRate -
            ((t.getOverlaps r).map (·.writeKeysRate)).sum },
       t.getOverlaps r) := by
  unfold regionTree.update
  have hover : regionTree.getOverlaps
      { t with
        totalSize := t.totalSize + r.approximateSize
        totalWriteBytesRate := t.totalWriteBytesRate + r.writeBytesRate
        totalWriteKeysRate := t.totalWriteKeysRate + r.writeKeysRate } r = t.getOverlaps r :=
    getOverlaps_congr r rfl
  simp only [hover, foldl_del_spec]

theorem deleteByKey_cons_ne {k : Key} {x : RegionInfo} {l : List RegionInfo}
    (h : x.startKey ≠ k) : deleteByKey k (x :: l) = x :: deleteByKey k l := by
  simp [deleteByKey, h]

theorem foldl_delete_commute (x : RegionInfo) :
    ∀ (ov acc : List RegionInfo), (∀ o ∈ ov, o.startKey ≠ x.startKey) →
      ov.foldl (fun l o => deleteByKey o.startKey l) (x :: acc)
        = x :: ov.foldl (fun l o => deleteByKey o.startKey l) acc := by
  intro ov
  induction ov with
  | nil => intro acc _; simp
  | cons o rest ih =>
    intro acc h
    rw [List.foldl_cons, deleteByKey_cons_ne (h o (by simp)).symm, List.foldl_cons,
      ih _ (fun p hp => h p (by simp [hp]))]

theorem foldl_delete_filter (p : RegionInfo → Bool) :
    ∀ l : List RegionInfo, (l.map (·.startKey)).Nodup →
      (l.filter p).foldl (fun acc o => deleteByKey o.startKey acc) l
        = l.filter (fun e => !p e) := by
  intro l
  induction l with
  | nil => simp
  | cons x xs ih =>
    intro hnd
    rw [List.map_cons, List.nodup_cons] at hnd
    by_cases hp : p x = true
    · rw [List.filter_cons_of_pos hp, List.foldl_cons]
      have hdel : deleteByKey x.startKey (x :: xs) = xs := by simp [deleteByKey]
      rw [hdel, ih hnd.2, List.filter_cons_of_neg (by simp [hp])]
    · rw [List.filter_cons_of_neg hp]
      have hne : ∀ o ∈ xs.filter p, o.startKey ≠ x.startKey := by
        intro o ho hoeq
        exact hnd.1 (hoeq ▸ List.mem_map_of_mem (·.startKey) (List.mem_filter.mp ho).1)
      rw [foldl_delete_commute x _ _ hne, ih hnd.2,
        List.filter_cons_of_pos (by simp [hp])]

theorem keys_nodup {l : List RegionInfo} (hpw : l.Pairwise InvPair) :
    (l.map (·.startKey)).Nodup :=
  List.pairwise_map.mpr (hpw.imp (fun h => ne_of_lt h.1))

theorem not_overlaps_sided {r e : RegionInfo} (hr : validRegion r = true)
    (he : validRegion e = true) (h : overlapsWith r e = false) :
    (r.startKey < e.startKey ∧ InvPair r e) ∨ (e.startKey < r.startKey ∧ InvPair e r) := by
  have h' : ¬ (overlapsWith r e = true) := by simp [h]
  rw [overlapsWith_iff] at h'
  rcases not_and_or.mp h' with hc | hc
  · push_neg at hc
    have hrend : r.startKey < r.endKey := by
      rcases validRegion_iff.mp hr with h0 | h0
      · exact absurd h0 hc.1
      · exact h0
    have hlt : r.startKey < e.startKey := hrend.trans_le hc.2
    exact Or.inl ⟨hlt, hlt, hc.1, hc.2⟩
  · push_neg at hc
    have heend : e.startKey < e.endKey := by
      rcases validRegion_iff.mp he with h0 | h0
      · exact absurd h0 hc.1
      · exact h0
    have hlt : e.startKey < r.startKey := heend.trans_le hc.2
    exact Or.inr ⟨hlt, hlt, hc.1, hc.2⟩

theorem pairwise_replaceOrInsert (item : RegionInfo) :
    ∀ l : List RegionInfo, l.Pairwise InvPair →
      (∀ e ∈ l, (item.startKey < e.startKey ∧ InvPair item e) ∨
                (e.startKey < item.startKey ∧ InvPair e item)) →
      (replaceOrInsert item l).Pairwise InvPair := by
  intro l
  induction l with
  | nil => intro _ _; simp [replaceOrInsert]
  | cons x xs ih =>
    intro hpw hcomp
    rcases List.pairwise_cons.mp hpw with ⟨hx, hxs⟩
    by_cases h1 : item.startKey < x.startKey
    · simp only [replaceOrInsert, if_pos h1]
      refine List.pairwise_cons.mpr ⟨?_, hpw⟩
      intro y hy
      rcases List.mem_cons.mp hy with rfl | hyxs
      · rcases hcomp y (by simp) with ⟨_, hie⟩ | ⟨hlt, _⟩
        · exact hie
        · exact absurd h1 (asymm hlt)
      · rcases hcomp y (by simp [hyxs]) with ⟨_, hie⟩ | ⟨hlt, _⟩
        · exact hie
        · exact absurd (h1.trans (hx y hyxs).1) (asymm hlt)
    · by_cases h2 : item.startKey = x.startKey
      · rcases hcomp x (by simp) with ⟨hlt, _⟩ | ⟨hlt, _⟩
        · exact absurd h2 (ne_of_lt hlt)
        · exact absurd h2 (ne_of_gt hlt)
      · simp only [replaceOrInsert, if_neg h1, if_neg h2]
        refine List.pairwise_cons.mpr
          ⟨?_, ih hxs (fun e he => hcomp e (by simp [he]))⟩
        intro y hy
        rcases mem_replaceOrInsert y item _ hy with rfl | hyxs
        · rcases hcomp x (by simp) with ⟨hlt, _⟩ | ⟨_, hxi⟩
          · exact absurd hlt h1
          · exact hxi
        · exact hx y hyxs

theorem delete_cons_perm {res : RegionInfo} :
    ∀ l : List RegionInfo, (l.map (·.startKey)).Nodup → res ∈ l →
      (res :: deleteByKey res.startKey l).Perm l := by
  intro l
  induction l with
  | nil => intro _ h; simp at h
  | cons x xs ih =>
    intro hnd hmem
    rw [List.map_cons, List.nodup_cons] at hnd
    by_cases h : x.startKey = res.startKey
    · have hxres : x = res := by
        rcases List.mem_cons.mp hmem with rfl | hres
        · rfl
        · exact absurd (h ▸ List.mem_map_of_mem (·.startKey) hres) hnd.1
      subst hxres
      simp [deleteByKey, h]
    · have hres : res ∈ xs := by
        rcases List.mem_cons.mp hmem with rfl | hres
        · exact absurd rfl h
        · exact hres
      rw [deleteByKey_cons_ne h]
      exact (List.Perm.swap x res _).trans ((ih hnd.2 hres).cons x)

theorem sum_filter_not {M : Type} [AddCommGroup M] (f : RegionInfo → M)
    (p : RegionInfo → Bool) (l : List RegionInfo) :
    ((l.filter (fun e => !p e)).map f).sum = (l.map f).sum - ((l.filter p).map f).sum := by
  have h2 := ((List.filter_append_perm p l).map f).sum_eq
  rw [List.map_append, List.sum_append] at h2
  rw [← h2]
  abel

/-! ### Preservation of the invariants by `update` and `remove` -/

theorem TreeInv_update {t : regionTree} {r : RegionInfo}
    (hInv : TreeInv t) (hr : validRegion r = true) : TreeInv (t.update r).1 := by
  have hfold : (t.getOverlaps r).foldl (fun l old => deleteByKey old.startKey l) t.entries
      = t.entries.filter (fun e => !overlapsWith r e) := by
    rw [getOverlaps_eq hInv]
    exact foldl_delete_filter _ _ (keys_nodup hInv.1)
  have hent : (t.update r).1.entries
      = replaceOrInsert r (t.entries.filter (fun e => !overlapsWith r e)) := by
    rw [update_spec, ← hfold]
  constructor
  · rw [hent]
    refine pairwise_replaceOrInsert _ _ (hInv.1.filter _) ?_
    intro e he
    rcases List.mem_filter.mp he with ⟨hemem, hep⟩
    have hov : overlapsWith r e = false := by simpa using hep
    exact not_overlaps_sided hr (hInv.2 e hemem) hov
  · intro e he
    rw [hent] at he
    rcases mem_replaceOrInsert e r _ he with rfl | hef
    · exact hr
    · exact hInv.2 e (List.mem_filter.mp hef).1

theorem Agg_update {t : regionTree} {r : RegionInfo}
    (hInv : TreeInv t) (hAgg : Agg t) (hr : validRegion r = true) : Agg (t.update r).1 := by
  have hfold : (t.getOverlaps r).foldl (fun l old => deleteByKey old.startKey l) t.entries
      = t.entries.filter (fun e => !overlapsWith r e) := by
    rw [getOverlaps_eq hInv]
    exact foldl_delete_filter _ _ (keys_nodup hInv.1)
  have hent : (t.update r).1.entries
      = replaceOrInsert r (t.entries.filter (fun e => !overlapsWith r e)) := by
    rw [update_spec, ← hfold]
  have hsided : ∀ e ∈ t.entries.filter (fun e => !overlapsWith r e), e.startKey ≠ r.startKey := by
    intro e he
    rcases List.mem_filter.mp he with ⟨hemem, hep⟩
    rcases not_overlaps_sided hr (hInv.2 e hemem) (by simpa using hep) with ⟨hlt, _⟩ | ⟨hlt, _⟩
    · exact ne_of_gt hlt
    · exact ne_of_lt hlt
  have hperm := replaceOrInsert_perm r _ hsided
  have hts : (t.update r).1.totalSize
      = t.totalSize + r.approximateSize - ((t.getOverlaps r).map (·.approximateSize)).sum := by
    rw [update_spec]
  have hbr : (t.update r).1.totalWriteBytesRate
      = t.totalWriteBytesRate + r.writeBytesRate - ((t.getOverlaps r).map (·.writeBytesRate)).sum := by
    rw [update_spec]
  have hkr : (t.update r).1.totalWriteKeysRate
      = t.totalWriteKeysRate + r.writeKeysRate - ((t.getOverlaps r).map (·.writeKeysRate)).sum := by
    rw [update_spec]
  refine ⟨?_, ?_, ?_⟩
  · rw [hts, hent, (hperm.map (·.approximateSize)).sum_eq, List.map_cons, List.sum_cons,
      sum_filter_not, getOverlaps_eq hInv, hAgg.1]
    ring
  · rw [hbr, hent, (hperm.map (·.writeBytesRate)).sum_eq, List.map_cons, List.sum_cons,
      sum_filter_not, getOverlaps_eq hInv, hAgg.2.1]
    ring
  · rw [hkr, hent, (hperm.map (·.writeKeysRate)).sum_eq, List.map_cons, List.sum_cons,
      sum_filter_not, getOverlaps_eq hInv, hAgg.2.2]
    ring

theorem TreeInv_remove {t : regionTree} {r : RegionInfo} (hInv : TreeInv t) :
    TreeInv (t.remove r) := by
  unfold regionTree.remove
  split
  · exact hInv
  · cases hf : t.find r with
    | none => exact hInv
    | some res =>
      dsimp only
      split
      · exact hInv
      · exact ⟨List.Pairwise.sublist (deleteByKey_sublist _ _) hInv.1,
          fun e he => hInv.2 e ((deleteByKey_sublist _ _).subset he)⟩

theorem Agg_remove {t : regionTree} {r : RegionInfo}
    (hInv : TreeInv t) (hAgg : Agg t) (hok : removeOk t r = true) : Agg (t.remove r) := by
  unfold regionTree.remove
  split
  · exact hAgg
  · cases hf : t.find r with
    | none => exact hAgg
    | some res =>
      unfold removeOk at hok
      rw [hf] at hok
      dsimp only
      split
      · exact hAgg
      · next hrid =>
        have hb : res.rid = r.rid := not_not.mp hrid
        dsimp only at hok
        rw [if_pos hb] at hok
        simp only [Bool.and_eq_true, decide_eq_true_eq] at hok
        have hresmem := (find_eq_some hf).1
        have hperm := delete_cons_perm t.entries (keys_nodup hInv.1) hresmem
        refine ⟨?_, ?_, ?_⟩
        · have hsum := (hperm.map (·.approximateSize)).sum_eq
          rw [List.map_cons, List.sum_cons] at hsum
          show t.totalSize - r.approximateSize
            = ((deleteByKey res.startKey t.entries).map (·.approximateSize)).sum
          rw [hAgg.1, hok.1.1]
          omega
        · have hsum := (hperm.map (·.writeBytesRate)).sum_eq
          rw [List.map_cons, List.sum_cons] at hsum
          show t.totalWriteBytesRate - r.writeBytesRate
            = ((deleteByKey res.startKey t.entries).map (·.writeBytesRate)).sum
          rw [hAgg.2.1, hok.1.2]
          linarith
        · have hsum := (hperm.map (·.writeKeysRate)).sum_eq
          rw [List.map_cons, List.sum_cons] at hsum
          show t.totalWriteKeysRate - r.writeKeysRate
            = ((deleteByKey res.startKey t.entries).map (·.writeKeysRate)).sum
          rw [hAgg.2.2, hok.2]
          linarith

theorem runOps_inv : ∀ (ops : List TreeOp) (t : regionTree), TreeInv t →
    (∀ r, TreeOp.upd r ∈ ops → validRegion r = true) → TreeInv (runOps t ops) := by
  intro ops
  induction ops with
  | nil => intro t h _; exact h
  | cons op rest ih =>
    intro t h hv
    cases op with
    | upd r =>
      exact ih _ (TreeInv_update h (hv r (by simp))) (fun r' hr' => hv r' (by simp [hr']))
    | rem r =>
      exact ih _ (TreeInv_remove h) (fun r' hr' => hv r' (by simp [hr']))

theorem runOps_good : ∀ (ops : List TreeOp) (t : regionTree), TreeInv t → Agg t →
    goodOps t ops = true → TreeInv (runOps t ops) ∧ Agg (runOps t ops) := by
  intro ops
  induction ops with
  | nil => intro t h1 h2 _; exact ⟨h1, h2⟩
  | cons op rest ih =>
    intro t h1 h2 hg
    cases op with
    | upd r =>
      rw [goodOps, Bool.and_eq_true] at hg
      exact ih _ (TreeInv_update h1 hg.1) (Agg_update h1 h2 hg.1) hg.2
    | rem r =>
      rw [goodOps, Bool.and_eq_true] at hg
      exact ih _ (TreeInv_remove h1) (Agg_remove h1 h2 hg.1) hg.2

/-! ### Claim theorems for the region tree -/

instance (t : regionTree) : Decidable (Agg t) := by unfold Agg; infer_instance

instance (t : regionTree) : Decidable (TreeInv t) := by unfold TreeInv; infer_instance

/-- Every `update` argument in the sequence is a valid region. -/
def validUpdates (ops : List TreeOp) : Bool :=
  ops.all (fun op => match op with | .upd q => validRegion q | .rem _ => true)

theorem validUpdates_spec {ops : List TreeOp} (h : validUpdates ops = true) :
    ∀ r, TreeOp.upd r ∈ ops → validRegion r = true := by
  intro r hr
  simpa using List.all_eq_true.mp h _ hr

theorem TreeInv_new : TreeInv newRegionTree :=
  ⟨List.Pairwise.nil, by simp [newRegionTree]⟩

theorem Agg_new : Agg newRegionTree := ⟨rfl, rfl, rfl⟩

/-- The run of C1's counterexample: store a region of size 10 (rates 1, 2) and
one of size 7 (rates 3, 4), then remove a region with the first one's id but
size 5 and zero rates. -/
def c1ops : List TreeOp :=
  [TreeOp.upd { rid := 1, startKey := [], endKey := [98], approximateSize := 10,
                writeBytesRate := 1, writeKeysRate := 2 },
   TreeOp.upd { rid := 2, startKey := [98], endKey := [], approximateSize := 7,
                writeBytesRate := 3, writeKeysRate := 4 },
   TreeOp.rem { rid := 1, startKey := [], endKey := [98], approximateSize := 5,
                writeBytesRate := 0, writeKeysRate := 0 }]

/-- C1 (counterexample): after updating two regions and removing one via a
region object with the stored entry's id but a different approximateSize and
write rates, the aggregates no longer equal the sums over the stored entries
(totalSize is 12 while the single remaining entry has size 7). -/
theorem C1_counterexample : ¬ Agg (runOps newRegionTree c1ops) := by decide

/-- C1 (amended): for every sequence of `update` and `remove` calls in which
each `update` argument is a valid region and each `remove` argument carries
the located entry's approximateSize and write rates whenever it matches a
stored entry by id, afterwards `totalSize` equals the sum of `approximateSize`
over the stored regions and the write-rate aggregates equal the respective
sums. -/
theorem C1_amended (ops : List TreeOp) (h : goodOps newRegionTree ops = true) :
    Agg (runOps newRegionTree ops) :=
  (runOps_good ops newRegionTree TreeInv_new Agg_new h).2

theorem C1_witness :
    goodOps newRegionTree
      [TreeOp.upd { rid := 1, startKey := [], endKey := [98], approximateSize := 10,
                    writeBytesRate := 1, writeKeysRate := 2 },
       TreeOp.upd { rid := 2, startKey := [98], endKey := [], approximateSize := 7,
                    writeBytesRate := 3, writeKeysRate := 4 },
       TreeOp.rem { rid := 1, startKey := [], endKey := [98], approximateSize := 10,
                    writeBytesRate := 1, writeKeysRate := 2 }] = true ∧
    Agg (runOps newRegionTree
      [TreeOp.upd { rid := 1, startKey := [], endKey := [98], approximateSize := 10,
                    writeBytesRate := 1, writeKeysRate := 2 },
       TreeOp.upd { rid := 2, startKey := [98], endKey := [], approximateSize := 7,
                    writeBytesRate := 3, writeKeysRate := 4 },
       TreeOp.rem { rid := 1, startKey := [], endKey := [98], approximateSize := 10,
                    writeBytesRate := 1, writeKeysRate := 2 }]) :=
  ⟨by decide, C1_amended _ (by decide)⟩

/-- C5: for every sequence of `update` and `remove` calls whose `update`
arguments are valid regions of the data model, no two entries stored in the
resulting tree overlap: for stored `a`, `b` with `a.startKey < b.startKey`,
`a.endKey` is non-empty (not +infinity) and `a.endKey ≤ b.startKey`. -/
theorem C5_nonoverlap (ops : List TreeOp) (hv : validUpdates ops = true) :
    ∀ a ∈ (runOps newRegionTree ops).entries, ∀ b ∈ (runOps newRegionTree ops).entries,
      a.startKey < b.startKey → a.endKey ≠ [] ∧ a.endKey ≤ b.startKey := by
  have hInv := runOps_inv ops newRegionTree TreeInv_new (validUpdates_spec hv)
  intro a ha b hb hab
  have h := pairwise_total hInv.1 a ha b hb hab
  exact ⟨h.2.1, h.2.2⟩

/-- Concrete input used by C5's witness. -/
def c5ops : List TreeOp :=
  [TreeOp.upd { rid := 1, startKey := [], endKey := [98], approximateSize := 4,
                writeBytesRate := 0, writeKeysRate := 0 },
   TreeOp.upd { rid := 2, startKey := [98], endKey := [100], approximateSize := 5,
                writeBytesRate := 0, writeKeysRate := 0 }]

theorem C5_witness :
    validUpdates c5ops = true ∧
    (({ rid := 1, startKey := [], endKey := [98], approximateSize := 4,
        writeBytesRate := 0, writeKeysRate := 0 } : RegionInfo).endKey ≠ [] ∧
     ({ rid := 1, startKey := [], endKey := [98], approximateSize := 4,
        writeBytesRate := 0, writeKeysRate := 0 } : RegionInfo).endKey ≤
       ({ rid := 2, startKey := [98], endKey := [100], approximateSize := 5,
          writeBytesRate := 0, writeKeysRate := 0 } : RegionInfo).startKey) :=
  ⟨by decide,
    C5_nonoverlap c5ops (by decide) _ (by decide) _ (by decide) (by decide)⟩

/-- C6: on every tree state reachable by valid `update`/`remove` calls and for
every valid query region, `getOverlaps` returns exactly the stored entries
whose key range intersects the query's range `[startKey, endKey)` (empty end
key meaning no upper bound), in stored order. -/
theorem C6_getOverlaps (ops : List TreeOp) (r : RegionInfo)
    (hv : validUpdates ops = true) (hr : validRegion r = true) :
    (runOps newRegionTree ops).getOverlaps r
      = (runOps newRegionTree ops).entries.filter (overlapsWith r) :=
  getOverlaps_eq (runOps_inv ops newRegionTree TreeInv_new (validUpdates_spec hv))

/-- Concrete inputs used by C6's witness: the spec's scenario S1 tree and the
query region with range from byte 97 to byte 99. -/
def c6ops : List TreeOp :=
  [TreeOp.upd { rid := 1, startKey := [], endKey := [98], approximateSize := 1,
                writeBytesRate := 0, writeKeysRate := 0 },
   TreeOp.upd { rid := 2, startKey := [98], endKey := [100], approximateSize := 1,
                writeBytesRate := 0, writeKeysRate := 0 },
   TreeOp.upd { rid := 3, startKey := [100], endKey := [], approximateSize := 1,
                writeBytesRate := 0, writeKeysRate := 0 }]

/-- Concrete query region used by C6's witness. -/
def c6query : RegionInfo :=
  { rid := 9, startKey := [97], endKey := [99], approximateSize := 0,
    writeBytesRate := 0, writeKeysRate := 0 }

theorem C6_witness :
    validUpdates c6ops = true ∧ validRegion c6query = true ∧
    (runOps newRegionTree c6ops).getOverlaps c6query
      = (runOps newRegionTree c6ops).entries.filter (overlapsWith c6query) :=
  ⟨by decide, by decide, C6_getOverlaps c6ops c6query (by decide) (by decide)⟩

/-!
Part 2: the operator controller (the `schedule` package part of the source:
`OperatorController` with `AddWaitingOperator`, `AddOperator`,
`PromoteWaitingOperator`, `checkAddOperator`, `addOperatorLocked`,
`Dispatch`, `RemoveOperator`, `buryOperator`, `exceedStoreLimitLocked`).

The `operator` package (operator objects, statuses, steps), the
`storelimit` package, the waiting bucket (`RandBuckets`) and the TTL caches
are not part of the given sources; they are modelled from the spec where
needed, with a `Modelled from the spec:` note on each such definition.
Times are naturals (milliseconds). Go maps become association lists.
Metrics counters and log statements are dropped; the `counts` kind
statistics and the timer-driven `PushOperators` loop are not modelled since
no claim mentions them. `Take` calls on store limiters are recorded in an
event trace.
-/

/-- Assoc-list lookup (Go map read). -/
def lookupA {κ β : Type} [DecidableEq κ] (k : κ) : List (κ × β) → Option β
  | [] => none
  | (k', v) :: rest => if k' = k then some v else lookupA k rest

/-- Assoc-list write (Go map write): replace the first binding or append. -/
def setA {κ β : Type} [DecidableEq κ] (k : κ) (v : β) : List (κ × β) → List (κ × β)
  | [] => [(k, v)]
  | (k', v') :: rest => if k' = k then (k, v) :: rest else (k', v') :: setA k v rest

/-- Assoc-list delete (Go map delete). -/
def delA {κ β : Type} [DecidableEq κ] (k : κ) : List (κ × β) → List (κ × β)
  | [] => []
  | (k', v') :: rest => if k' = k then rest else (k', v') :: delA k rest

theorem lookupA_setA_self {κ β : Type} [DecidableEq κ] (k : κ) (v : β) :
    ∀ l : List (κ × β), lookupA k (setA k v l) = some v := by
  intro l
  induction l with
  | nil => simp [setA, lookupA]
  | cons kv rest ih =>
    by_cases h : kv.1 = k
    · simp [setA, h, lookupA]
    · simp [setA, h, lookupA, ih]

theorem lookupA_setA_ne {κ β : Type} [DecidableEq κ] {k k' : κ} (v : β) (h : k' ≠ k) :
    ∀ l : List (κ × β), lookupA k' (setA k v l) = lookupA k' l := by
  intro l
  induction l with
  | nil => simp [setA, lookupA, Ne.symm h]
  | cons kv rest ih =>
    by_cases h1 : kv.1 = k
    · have h2 : kv.1 ≠ k' := by rw [h1]; exact Ne.symm h
      simp [setA, h1, lookupA, Ne.symm h, h2]
    · simp only [setA, if_neg h1, lookupA]
      by_cases h2 : kv.1 = k'
      · simp [h2]
      · simp [h2, ih]

theorem lookupA_delA_ne {κ β : Type} [DecidableEq κ] {k k' : κ} (h : k' ≠ k) :
    ∀ l : List (κ × β), lookupA k' (delA k l) = lookupA k' l := by
  intro l
  induction l with
  | nil => simp [delA]
  | cons kv rest ih =>
    by_cases h1 : kv.1 = k
    · have h2 : kv.1 ≠ k' := by rw [h1]; exact Ne.symm h
      simp [delA, h1, lookupA, h2, Ne.symm h]
    · simp only [delA, if_neg h1, lookupA]
      by_cases h2 : kv.1 = k'
      · simp [h2]
      · simp [h2, ih]

/-- Operator lifecycle status (spec section 3): CREATED is initial, STARTED
running, and SUCCESS/TIMEOUT/REPLACED/CANCELED/EXPIRED terminal. -/
inductive OpStatus where
  | CREATED | STARTED | SUCCESS | TIMEOUT | REPLACED | CANCELED | EXPIRED
deriving DecidableEq, Repr

/-- `operator.IsEndStatus`. Modelled from the spec: terminals are marked in
the status machine of spec section 3. -/
def IsEndStatus : OpStatus → Bool
  | .CREATED => false
  | .STARTED => false
  | _ => true

/-- Store-limit kinds (spec section 3: add-peer, remove-peer). -/
inductive LimitType where
  | addPeer | removePeer
deriving DecidableEq, Repr

/-- Modelled from the spec: an operator step. The step variants' internals are
in the `operator` package (not in the sources); a step is abstracted to an
identity `sid`, whether it is a leader/learner-change step (fast notify
interval), and whether it consumes a confver unit. -/
structure OpStep where
  sid : ℕ
  fastKind : Bool
  confChange : Bool
deriving DecidableEq, Repr

/-- The immutable data of an operator (spec section 3): identity, region,
description, merge kind bit, priority level, captured epoch, step list,
timeout, creation time, step-history records, and the per-(store, kind) step
costs of its influence (modelled from the spec's store-influence section,
counted only when the region exists). -/
structure Operator where
  opId : ℕ
  regionID : ℕ
  desc : String
  kindMerge : Bool
  priorityLevel : ℕ
  epochVer : ℕ
  epochConfVer : ℕ
  steps : List OpStep
  timeout : ℕ
  createTime : ℕ
  histRecs : List ℕ
  influence : List ((ℕ × LimitType) × ℤ)
deriving DecidableEq, Repr

/-- The mutable part of an operator (status, start time, current step index),
held in a registry keyed by `opId` so that status transitions are visible
through every reference to the operator, as for the shared Go pointer. -/
structure OpMut where
  status : OpStatus
  startTime : ℕ
  currentStep : ℕ
deriving DecidableEq, Repr

/-- A region as the controller sees it: id, epoch, and (modelled from the
spec, since the step package is not in the sources) which step ids are
finished in this region state and which fail `CheckInProgress`. -/
structure CRegion where
  rid : ℕ
  ver : ℕ
  confVer : ℕ
  finishedSteps : List ℕ
  badSteps : List ℕ
deriving DecidableEq, Repr

/-- Modelled from the spec: a store carries one token-bucket limiter per
limit kind; only the available token count matters at an admission instant
(refill is real-time behaviour outside the model). -/
structure Store where
  limits : List (LimitType × ℤ)
deriving DecidableEq, Repr

/-- The cluster snapshot consumed by the controller: regions, stores, and the
`GetSchedulerMaxWaitingOperator` option. -/
structure Cluster where
  regions : List (ℕ × CRegion)
  stores : List (ℕ × Store)
  maxWaiting : ℕ
deriving DecidableEq, Repr

/-- A `Take` on a store limiter, recorded for token-conservation claims. -/
inductive LimitEvent where
  | take (storeID : ℕ) (kind : LimitType) (cost : ℤ) (opId : ℕ)
deriving DecidableEq, Repr

/-- The operator controller state: running operators by region id, the
mutable operator registry, the waiting bucket (modelled from the spec as a
FIFO queue, abstracting the random band selection of `RandBuckets`),
`wopStatus` per-description waiting counts, step histories, the
`fastOperators` and `opRecords` caches (TTL expiry is real-time behaviour and
not modelled), the notifier queue, and the `Take` event trace. -/
structure ControllerState where
  cluster : Cluster
  operators : List (ℕ × Operator)
  muts : List (ℕ × OpMut)
  wop : List Operator
  wopStatus : List (String × ℕ)
  histories : List ℕ
  fastOperators : List (ℕ × ℕ)
  opRecords : List (ℕ × (ℕ × OpStatus))
  opNotifierQueue : List (ℕ × ℕ)
  events : List LimitEvent
deriving DecidableEq, Repr

/-- A fresh operator's mutable state: CREATED, no start time, step index 0. -/
def freshMut : OpMut := { status := .CREATED, startTime := 0, currentStep := 0 }

def ControllerState.getMut (s : ControllerState) (oid : ℕ) : OpMut :=
  (lookupA oid s.muts).getD freshMut

def ControllerState.setMut (s : ControllerState) (oid : ℕ) (m : OpMut) : ControllerState :=
  { s with muts := setA oid m s.muts }

def ControllerState.getStatus (s : ControllerState) (op : Operator) : OpStatus :=
  (s.getMut op.opId).status

/-- `Operator.Cancel`. Modelled from the spec: any non-terminal status moves
to CANCELED; returns false otherwise (double-cancel is idempotent). -/
def cancelOp (s : ControllerState) (op : Operator) : ControllerState × Bool :=
  let m := s.getMut op.opId
  if IsEndStatus m.status then (s, false)
  else (s.setMut op.opId { m with status := .CANCELED }, true)

/-- `Operator.Replace`. Modelled from the spec: a newer same-region operator
drives STARTED to REPLACED on the displaced one; fails otherwise. -/
def replaceOp (s : ControllerState) (op : Operator) : ControllerState × Bool :=
  let m := s.getMut op.opId
  if m.status = .STARTED then (s.setMut op.opId { m with status := .REPLACED }, true)
  else (s, false)

/-- `Operator.Start`. Modelled from the spec: CREATED to STARTED, recording
the start time; fails otherwise. -/
def startOp (s : ControllerState) (op : Operator) (now : ℕ) : ControllerState × Bool :=
  let m := s.getMut op.opId
  if m.status = .CREATED then
    (s.setMut op.opId { m with status := .STARTED, startTime := now }, true)
  else (s, false)

/-- Modelled from the spec: the expiration window for operators sitting in
CREATED; its length is not in the sources and no claim depends on it. -/
def operatorExpireTime : ℕ := 3000

/-- `Operator.CheckExpired`. Modelled from the spec: true iff the operator has
sat in CREATED longer than the expiration window. -/
def checkExpired (s : ControllerState) (op : Operator) (now : ℕ) : Bool :=
  decide (s.getStatus op = OpStatus.CREATED) && decide (op.createTime + operatorExpireTime < now)

/-- Modelled from the spec: a step is finished in a region state iff the
region state witnesses it. -/
def stepIsFinish (st : OpStep) (r : CRegion) : Bool := r.finishedSteps.contains st.sid

/-- `Operator.ConfVerChanged`. Modelled from the spec: how many confver units
the region has consumed from this operator's plan. -/
def confVerChanged (op : Operator) (r : CRegion) : ℕ :=
  (op.steps.filter (fun st => st.confChange && stepIsFinish st r)).length

/-- `Operator.Check`. Modelled from the spec (section 4.B, plus the source
comment that `Check` also checks success and timeout): if the current step is
finished and last, transition STARTED to SUCCESS and return no step; if
finished otherwise, advance the index and return the next step; if
unfinished, return the current step, transitioning STARTED to TIMEOUT when
the operator has run past its timeout. -/
def opCheck (s : ControllerState) (op : Operator) (r : CRegion) (now : ℕ) :
    ControllerState × Option OpStep :=
  let m := s.getMut op.opId
  match op.steps[m.currentStep]? with
  | none =>
    if m.status = .STARTED then (s.setMut op.opId { m with status := .SUCCESS }, none)
    else (s, none)
  | some st =>
    if stepIsFinish st r then
      if m.currentStep + 1 = op.steps.length then
        (s.setMut op.opId { m with
            currentStep := m.currentStep + 1
            status := if m.status = .STARTED then OpStatus.SUCCESS else m.status }, none)
      else
        (s.setMut op.opId { m with currentStep := m.currentStep + 1 },
          op.steps[m.currentStep + 1]?)
    else
      if m.status = .STARTED && decide (m.startTime + op.timeout < now) then
        (s.setMut op.opId { m with status := .TIMEOUT }, some st)
      else (s, some st)

/-- `buryOperator`: force-cancel a non-terminal operator, then record the
operator's (now terminal) status in `opRecords` keyed by region id. Logging
and metrics are dropped. -/
def buryOperator (s : ControllerState) (op : Operator) : ControllerState :=
  let s1 := if IsEndStatus (s.getStatus op) then s else (cancelOp s op).1
  { s1 with opRecords := setA op.regionID (op.opId, s1.getStatus op) s1.opRecords }

/-- `removeOperatorLocked`: delete the map entry only when it still points to
this very operator (pointer identity becomes `opId` equality). -/
def removeOperatorLocked (s : ControllerState) (op : Operator) : ControllerState × Bool :=
  match lookupA op.regionID s.operators with
  | some cur =>
    if cur.opId = op.opId then
      ({ s with operators := delA op.regionID s.operators }, true)
    else (s, false)
  | none => (s, false)

/-- `RemoveOperator`: remove from the running map and, if removed, cancel
(ignoring the result) and bury. -/
def RemoveOperator (s : ControllerState) (op : Operator) : ControllerState × Bool :=
  let p := removeOperatorLocked s op
  if p.2 then (buryOperator (cancelOp p.1 op).1 op, true) else (p.1, false)

/-- Cancel (result ignored) and bury, as on every admission-rejection path. -/
def cancelBury (s : ControllerState) (op : Operator) : ControllerState :=
  buryOperator (cancelOp s op).1 op

def getWopStatus (s : ControllerState) (d : String) : ℕ := (lookupA d s.wopStatus).getD 0

/-- `isHigherPriorityOperator`: strictly higher priority level. -/
def isHigherPriorityOperator (newOp old : Operator) : Bool :=
  decide (old.priorityLevel < newOp.priorityLevel)

/-- One operator's admission conditions inside `checkAddOperator`: the region
exists, epochs match exactly, no running operator for the region unless the
new one has strictly higher priority, status is CREATED, and the per-desc
waiting count is below `GetSchedulerMaxWaitingOperator`. -/
def checkAddOne (s : ControllerState) (op : Operator) : Bool :=
  match lookupA op.regionID s.cluster.regions with
  | none => false
  | some region =>
    decide (region.ver = op.epochVer) && decide (region.confVer = op.epochConfVer) &&
    (match lookupA op.regionID s.operators with
     | some old => isHigherPriorityOperator op old
     | none => true) &&
    decide (s.getStatus op = OpStatus.CREATED) &&
    decide (getWopStatus s op.desc < s.cluster.maxWaiting)

/-- `checkAddOperator`: every operator passes the admission conditions and
none has expired. -/
def checkAddOperator (s : ControllerState) (now : ℕ) (ops : List Operator) : Bool :=
  ops.all (checkAddOne s) && !(ops.any (fun op => checkExpired s op now))

/-- `NewTotalOpInfluence`: collect each operator's influence when its region
exists in the cluster view. -/
def NewTotalOpInfluence (s : ControllerState) (ops : List Operator) : List ((ℕ × LimitType) × ℤ) :=
  ops.foldl (fun acc op =>
    if (lookupA op.regionID s.cluster.regions).isSome then acc ++ op.influence else acc) []

/-- `GetStepCost` of an influence for one (store, kind). -/
def GetStepCost (infl : List ((ℕ × LimitType) × ℤ)) (storeID : ℕ) (k : LimitType) : ℤ :=
  ((infl.filter (fun e => decide (e.1.1 = storeID) && decide (e.1.2 = k))).map (·.2)).sum

/-- The (store, kind) pairs visited by the store-limit loops: every influenced
store with both limit kinds (Go iterates `storelimit.TypeNameValue`). -/
def influencePairs (infl : List ((ℕ × LimitType) × ℤ)) : List (ℕ × LimitType) :=
  ((infl.map (fun e => e.1.1)).dedup).foldr
    (fun st acc => (st, LimitType.addPeer) :: (st, LimitType.removePeer) :: acc) []

def getStoreLimit (st : Store) (k : LimitType) : Option ℤ := lookupA k st.limits

/-- `getOrCreateStoreLimit`. Modelled from the spec where it leaves the
sources: returns no limiter only when the store is missing; a limiter created
on the spot starts with no tokens; the rate bookkeeping and reset are elided
because token refill is real-time behaviour outside the model. -/
def getOrCreateStoreLimit (s : ControllerState) (storeID : ℕ) (k : LimitType) : Option ℤ :=
  match lookupA storeID s.cluster.stores with
  | none => none
  | some store => some ((getStoreLimit store k).getD 0)

/-- The loop of `exceedStoreLimitLocked`: skip zero step costs, return false
outright when a store is missing, return true at the first limiter with fewer
available tokens than the step cost. -/
def exceedLoop (s : ControllerState) (infl : List ((ℕ × LimitType) × ℤ)) :
    List (ℕ × LimitType) → Bool
  | [] => false
  | (storeID, k) :: rest =>
    let stepCost := GetStepCost infl storeID k
    if stepCost = 0 then exceedLoop s infl rest
    else
      match getOrCreateStoreLimit s storeID k with
      | none => false
      | some available => if available < stepCost then true else exceedLoop s infl rest

/-- `exceedStoreLimitLocked`. -/
def exceedStoreLimitLocked (s : ControllerState) (ops : List Operator) : Bool :=
  let infl := NewTotalOpInfluence s ops
  exceedLoop s infl (influencePairs infl)

/-- The `Take` loop of `addOperatorLocked`: returns false when an influenced
store is missing (partial takes persist); skips absent limiters and zero
costs; otherwise subtracts the step cost and records a take event. -/
def takeLoop (op : Operator) (infl : List ((ℕ × LimitType) × ℤ)) :
    ControllerState → List (ℕ × LimitType) → ControllerState × Bool
  | s, [] => (s, true)
  | s, (storeID, k) :: rest =>
    match lookupA storeID s.cluster.stores with
    | none => (s, false)
    | some store =>
      match getStoreLimit store k with
      | none => takeLoop op infl s rest
      | some available =>
        let stepCost := GetStepCost infl storeID k
        if stepCost = 0 then takeLoop op infl s rest
        else
          takeLoop op infl
            { s with
              cluster := { s.cluster with
                stores := setA storeID
                  { limits := setA k (available - stepCost) store.limits } s.cluster.stores }
              events := s.events ++ [LimitEvent.take storeID k stepCost op.opId] }
            rest

def DispatchFromHeartBeat : String := "heartbeat"
def DispatchFromNotifierQueue : String := "active push"
def DispatchFromCreate : String := "create"

def slowNotifyInterval : ℕ := 5000
def fastNotifyInterval : ℕ := 2000
def FastOperatorFinishTime : ℕ := 10000

/-- `getNextPushOperatorTime`: fast interval for leader/learner-change steps,
slow interval otherwise (also for a nil step). -/
def getNextPushOperatorTime (stepOpt : Option OpStep) (now : ℕ) : ℕ :=
  match stepOpt with
  | some st => if st.fastKind then now + fastNotifyInterval else now + slowNotifyInterval
  | none => now + slowNotifyInterval

/-- `SendScheduleCommand` builds a heartbeat response for the external sink;
modelled as the identity on controller state (the message and its per-variant
suppressions do not feed back into the controller). -/
def SendScheduleCommand (s : ControllerState) (r : CRegion) (step : OpStep)
    (source : String) : ControllerState := s

/-- `addOperatorLocked`: replace any existing operator for the region
(Replace + bury), start the new operator (abort on failure), record it in the
running map, charge the store limiters, emit the first command, and push a
notifier-queue entry. -/
def addOperatorLocked (s : ControllerState) (now : ℕ) (op : Operator) : ControllerState × Bool :=
  let s1 :=
    match lookupA op.regionID s.operators with
    | some old => buryOperator (replaceOp (removeOperatorLocked s old).1 old).1 old
    | none => s
  let p2 := startOp s1 op now
  if p2.2 then
    let s3 := { p2.1 with operators := setA op.regionID op p2.1.operators }
    let infl := NewTotalOpInfluence s3 [op]
    let p4 := takeLoop op infl s3 (influencePairs infl)
    if p4.2 then
      let p5 : ControllerState × Option OpStep :=
        match lookupA op.regionID p4.1.cluster.regions with
        | some region =>
          let cs := opCheck p4.1 op region now
          match cs.2 with
          | some st => (SendScheduleCommand cs.1 region st DispatchFromCreate, some st)
          | none => (cs.1, none)
        | none => (p4.1, none)
      ({ p5.1 with opNotifierQueue :=
          p5.1.opNotifierQueue ++ [(op.opId, getNextPushOperatorTime p5.2 now)] }, true)
    else (p4.1, false)
  else (p2.1, false)

/-- The installation loop shared by `AddOperator` and
`PromoteWaitingOperator`: stop at the first `addOperatorLocked` failure. -/
def installOps (now : ℕ) : ControllerState → List Operator → ControllerState × Bool
  | s, [] => (s, true)
  | s, op :: rest =>
    let p := addOperatorLocked s now op
    if p.2 then installOps now p.1 rest else (p.1, false)

/-- `wop.PutOperator`. Modelled from the spec: the priority-banded random
bucket is abstracted as a FIFO queue. -/
def putWop (s : ControllerState) (op : Operator) : ControllerState :=
  { s with wop := s.wop ++ [op] }

def incWopStatus (s : ControllerState) (d : String) : ControllerState :=
  { s with wopStatus := setA d (getWopStatus s d + 1) s.wopStatus }

/-- Decrement of `wopStatus.ops[desc]`; Go decrements a uint64 map entry, and
saturating subtraction on `ℕ` models it for the in-range states the claims
concern. -/
def decWopStatus (s : ControllerState) (d : String) : ControllerState :=
  { s with wopStatus := setA d (getWopStatus s d - 1) s.wopStatus }

/-- `wop.GetOperator`'s unit: one operator, or a pair when the head has the
merge kind (modelled from the spec's pairing of merge operators; a lone
trailing merge operator is returned alone, a case pair-preserving puts never
create). -/
def takeUnit (op : Operator) (rest : List Operator) : List Operator × List Operator :=
  if op.kindMerge then
    match rest with
    | [] => ([op], [])
    | op2 :: rest2 => ([op, op2], rest2)
  else ([op], rest)

theorem cancelOp_wop (s : ControllerState) (op : Operator) : ((cancelOp s op).1).wop = s.wop := by
  simp only [cancelOp]
  split <;> rfl

theorem buryOperator_wop (s : ControllerState) (op : Operator) :
    (buryOperator s op).wop = s.wop := by
  simp only [buryOperator]
  split <;> simp [cancelOp_wop]

theorem cancelBury_wop (s : ControllerState) (op : Operator) :
    (cancelBury s op).wop = s.wop := by
  simp [cancelBury, buryOperator_wop, cancelOp_wop]

theorem foldl_cancelBury_wop : ∀ (l : List Operator) (s : ControllerState),
    (l.foldl cancelBury s).wop = s.wop := by
  intro l
  induction l with
  | nil => intro s; rfl
  | cons op rest ih => intro s; rw [List.foldl_cons, ih, cancelBury_wop]

theorem takeUnit_len (op : Operator) (rest : List Operator) :
    (takeUnit op rest).2.length ≤ rest.length := by
  unfold takeUnit
  split
  · cases rest <;> simp
  · simp

/-- The selection loop of `PromoteWaitingOperator`, written with explicit
fuel (each iteration consumes at least one bucket element, so fuel equal to
the bucket length never runs out): pull units until one passes the
store-limit and admission checks (cancelling, burying and decrementing
`wopStatus` for each rejected unit), and return the admitted unit (empty
when the bucket drains). -/
def promoteLoopF (now : ℕ) : ℕ → ControllerState → ControllerState × List Operator
  | 0, s => (s, [])
  | fuel + 1, s =>
    match s.wop with
    | [] => (s, [])
    | op :: rest =>
      let ur := takeUnit op rest
      let s1 := { s with wop := ur.2 }
      if exceedStoreLimitLocked s1 ur.1 || !(checkAddOperator s1 now ur.1) then
        promoteLoopF now fuel (decWopStatus (ur.1.foldl cancelBury s1) op.desc)
      else
        (decWopStatus s1 op.desc, ur.1)

/-- The selection loop with its fuel instantiated to the bucket length. -/
def promoteLoop (s : ControllerState) (now : ℕ) : ControllerState × List Operator :=
  promoteLoopF now s.wop.length s

/-- `PromoteWaitingOperator`: run the selection loop, then install the
admitted unit with `addOperatorLocked`, stopping at the first failure. -/
def PromoteWaitingOperator (s : ControllerState) (now : ℕ) : ControllerState :=
  let p := promoteLoop s now
  (installOps now p.1 p.2).1

/-- `AddOperator`: direct admission; on store-limit excess or a failed
`checkAddOperator`, cancel and bury every operator and return false. -/
def AddOperator (s : ControllerState) (now : ℕ) (ops : List Operator) : ControllerState × Bool :=
  if exceedStoreLimitLocked s ops || !(checkAddOperator s now ops) then
    (ops.foldl cancelBury s, false)
  else installOps now s ops

/-- The admission loop of `AddWaitingOperator`: returns the final state, the
admitted count, and whether the loop ran to completion (false on the early
returns for an orphan merge operator, a mis-paired merge operator, or a
failed `checkAddOperator`). -/
def addWaitingLoop (now : ℕ) : ControllerState → List Operator → ℕ → ControllerState × ℕ × Bool
  | s, [], added => (s, added, true)
  | s, op :: rest, added =>
    if op.kindMerge then
      match rest with
      | [] => (s, added, false)
      | op2 :: rest2 =>
        if !op2.kindMerge then (s, added, false)
        else if !(checkAddOperator s now [op]) then
          (cancelBury (cancelBury s op) op2, added, false)
        else
          addWaitingLoop now (incWopStatus (putWop (putWop s op) op2) op.desc) rest2 (added + 2)
    else
      if !(checkAddOperator s now [op]) then (cancelBury s op, added, false)
      else addWaitingLoop now (incWopStatus (putWop s op) op.desc) rest (added + 1)

/-- `AddWaitingOperator`: run the admission loop; only when it completes is
`PromoteWaitingOperator` invoked (the source's early returns skip it). -/
def AddWaitingOperator (s : ControllerState) (now : ℕ) (ops : List Operator) :
    ControllerState × ℕ :=
  let r := addWaitingLoop now s ops 0
  if r.2.2 then (PromoteWaitingOperator r.1 now, r.2.1) else (r.1, r.2.1)

/-- `checkStaleOperator`: a failing `CheckInProgress` or a region confver
ahead of the operator's plan removes and buries the operator and promotes a
waiter; returns whether the operator was stale. -/
def checkStaleOperator (s : ControllerState) (now : ℕ) (op : Operator)
    (stepOpt : Option OpStep) (r : CRegion) : ControllerState × Bool :=
  let hasErr :=
    match stepOpt with
    | some st => r.badSteps.contains st.sid
    | none => false
  let p1 :=
    if hasErr then
      let q := RemoveOperator s op
      if q.2 then (PromoteWaitingOperator q.1 now, true) else (q.1, false)
    else (s, false)
  if p1.2 then p1
  else
    if confVerChanged op r < r.confVer - op.epochConfVer then
      let q := RemoveOperator p1.1 op
      if q.2 then (PromoteWaitingOperator q.1 now, true) else (q.1, false)
    else (p1.1, false)

/-- `pushHistory`: push each history record to the front of the list. -/
def pushHistory (s : ControllerState) (op : Operator) : ControllerState :=
  { s with histories := op.histRecs.foldl (fun acc h => h :: acc) s.histories }

/-- `pushFastOperator`: publish into the `fastOperators` cache keyed by
region id. -/
def pushFastOperator (s : ControllerState) (op : Operator) : ControllerState :=
  { s with fastOperators := setA op.regionID op.opId s.fastOperators }

/-- `Dispatch`: look up the running operator for the region, run `Check`, and
branch on the resulting status exactly as the source does. -/
def Dispatch (s : ControllerState) (r : CRegion) (source : String) (now : ℕ) : ControllerState :=
  match lookupA r.rid s.operators with
  | none => s
  | some op =>
    let cs := opCheck s op r now
    match cs.1.getStatus op with
    | .STARTED =>
      if source = DispatchFromHeartBeat then
        let st := checkStaleOperator cs.1 now op cs.2 r
        if st.2 then st.1
        else
          match cs.2 with
          | some stp => SendScheduleCommand st.1 r stp source
          | none => st.1
      else
        match cs.2 with
        | some stp => SendScheduleCommand cs.1 r stp source
        | none => cs.1
    | .SUCCESS =>
      let s2 := pushHistory cs.1 op
      let p := RemoveOperator s2 op
      let s4 := if p.2 then PromoteWaitingOperator p.1 now else p.1
      if now - (s4.getMut op.opId).startTime < FastOperatorFinishTime then pushFastOperator s4 op
      else s4
    | .TIMEOUT =>
      let p := RemoveOperator cs.1 op
      if p.2 then PromoteWaitingOperator p.1 now else p.1
    | _ =>
      let p := removeOperatorLocked cs.1 op
      if p.2 then PromoteWaitingOperator (cancelBury p.1 op) now
      else p.1

/-! ### Concrete fixtures for controller claims -/

/-- A controller over a cluster with no running or waiting operators. -/
def initState (c : Cluster) : ControllerState :=
  { cluster := c, operators := [], muts := [], wop := [], wopStatus := [],
    histories := [], fastOperators := [], opRecords := [], opNotifierQueue := [],
    events := [] }

def emptyCluster : Cluster := { regions := [], stores := [], maxWaiting := 5 }

/-- A merge-kind operator with no partner. -/
def c2op : Operator :=
  { opId := 1, regionID := 1, desc := "m", kindMerge := true, priorityLevel := 1,
    epochVer := 0, epochConfVer := 0, steps := [], timeout := 1000, createTime := 0,
    histRecs := [], influence := [] }

example : (AddWaitingOperator (initState emptyCluster) 0 [c2op]) =
    ((initState emptyCluster), 0) := by decide

/-- A region without pending step completions. -/
def reg2 : CRegion := { rid := 2, ver := 0, confVer := 0, finishedSteps := [], badSteps := [] }

def cluster3 : Cluster := { regions := [(2, reg2)], stores := [], maxWaiting := 5 }

/-- A well-formed waiting operator for region 2. -/
def w3 : Operator :=
  { opId := 10, regionID := 2, desc := "bl", kindMerge := false, priorityLevel := 1,
    epochVer := 0, epochConfVer := 0,
    steps := [{ sid := 7, fastKind := true, confChange := false }], timeout := 600000,
    createTime := 0, histRecs := [], influence := [] }

/-- An operator whose region is absent from the cluster view, so
`checkAddOperator` rejects it. -/
def bad3 : Operator :=
  { opId := 11, regionID := 99, desc := "nb", kindMerge := false, priorityLevel := 1,
    epochVer := 0, epochConfVer := 0, steps := [], timeout := 1000, createTime := 0,
    histRecs := [], influence := [] }

def s3 : ControllerState := { initState cluster3 with wop := [w3] }

example : (AddWaitingOperator s3 0 [bad3]).1.wop = [w3] := by decide
example : (PromoteWaitingOperator (cancelBury s3 bad3) 0).wop = [] := by decide
example : lookupA 2 (PromoteWaitingOperator (cancelBury s3 bad3) 0).operators = some w3 := by decide

/-! ### Claims C2, C3, C4 -/

/-- C2 (counterexample): calling `AddWaitingOperator` with a single orphan
merge operator leaves it in CREATED status and buries nothing, refuting that
the operators of a broken merge pair are Cancel-transitioned and buried as
CANCELED. -/
theorem C2_counterexample :
    ¬ ((AddWaitingOperator (initState emptyCluster) 0 [c2op]).1.getStatus c2op
        = OpStatus.CANCELED) ∧
    lookupA c2op.regionID (AddWaitingOperator (initState emptyCluster) 0 [c2op]).1.opRecords
      = none := by decide

/-- C2 (amended): on an orphan merge operator (last argument) or a mis-paired
merge operator (successor not a merge), `AddWaitingOperator` returns
immediately with the count admitted so far and the controller state
unchanged: the operators of the broken pair are neither cancelled nor
buried. -/
theorem C2_amended (s : ControllerState) (now : ℕ) (op : Operator) (rest : List Operator)
    (hm : op.kindMerge = true)
    (hmal : rest = [] ∨ ∃ op2 rest2, rest = op2 :: rest2 ∧ op2.kindMerge = false) :
    (∀ added, addWaitingLoop now s (op :: rest) added = (s, added, false)) ∧
    AddWaitingOperator s now (op :: rest) = (s, 0) := by
  have h1 : ∀ added, addWaitingLoop now s (op :: rest) added = (s, added, false) := by
    intro added
    rcases hmal with rfl | ⟨op2, rest2, rfl, h2⟩
    · simp [addWaitingLoop, hm]
    · simp [addWaitingLoop, hm, h2]
  refine ⟨h1, ?_⟩
  simp [AddWaitingOperator, h1 0]

theorem C2_witness :
    c2op.kindMerge = true ∧
    AddWaitingOperator (initState emptyCluster) 0 [c2op] = (initState emptyCluster, 0) :=
  ⟨by decide, (C2_amended (initState emptyCluster) 0 c2op [] (by decide) (Or.inl rfl)).2⟩

/-- C3 (counterexample): with the well-formed operator `w3` waiting and an
input operator whose region does not exist, `AddWaitingOperator` returns a
state different from the one `PromoteWaitingOperator` would produce on the
loop's final state — the rejection path returns without invoking promotion
(the waiter `w3` stays in the bucket instead of being installed). -/
theorem C3_counterexample :
    (AddWaitingOperator s3 0 [bad3]).1
      ≠ PromoteWaitingOperator (addWaitingLoop 0 s3 [bad3] 0).1 0 := by decide

theorem addWaitingLoop_wop_prefix (now : ℕ) :
    ∀ (n : ℕ) (ops : List Operator), ops.length ≤ n →
      ∀ (s : ControllerState) (added : ℕ),
        List.IsPrefix s.wop (addWaitingLoop now s ops added).1.wop := by
  intro n
  induction n with
  | zero =>
    intro ops hle s added
    have h : ops = [] := List.length_eq_zero.mp (Nat.le_zero.mp hle)
    subst h
    exact List.prefix_rfl
  | succ n ihn =>
    intro ops hle s added
    match ops with
    | [] => exact List.prefix_rfl
    | op :: rest =>
      by_cases hm : op.kindMerge = true
      · match rest with
        | [] =>
          simp only [addWaitingLoop, hm, if_true]
          exact List.prefix_rfl
        | op2 :: rest2 =>
          by_cases h2 : op2.kindMerge = true
          · by_cases hc : checkAddOperator s now [op] = true
            · have hred : addWaitingLoop now s (op :: op2 :: rest2) added
                  = addWaitingLoop now (incWopStatus (putWop (putWop s op) op2) op.desc)
                      rest2 (added + 2) := by
                simp [addWaitingLoop, hm, h2, hc]
              rw [hred]
              have hstep : List.IsPrefix s.wop
                  (incWopStatus (putWop (putWop s op) op2) op.desc).wop := by
                simp only [incWopStatus, putWop, List.append_assoc]
                exact List.prefix_append s.wop ([op] ++ [op2])
              have hlen : rest2.length ≤ n := by
                simp only [List.length_cons] at hle
                omega
              exact hstep.trans (ihn rest2 hlen _ (added + 2))
            · have hred : addWaitingLoop now s (op :: op2 :: rest2) added
                  = (cancelBury (cancelBury s op) op2, added, false) := by
                simp [addWaitingLoop, hm, h2, hc]
              rw [hred]
              show List.IsPrefix s.wop (cancelBury (cancelBury s op) op2).wop
              rw [cancelBury_wop, cancelBury_wop]
          · have hred : addWaitingLoop now s (op :: op2 :: rest2) added
                = (s, added, false) := by
              simp [addWaitingLoop, hm, h2]
            rw [hred]
      · by_cases hc : checkAddOperator s now [op] = true
        · have hred : addWaitingLoop now s (op :: rest) added
              = addWaitingLoop now (incWopStatus (putWop s op) op.desc) rest (added + 1) := by
            rw [addWaitingLoop.eq_def]
            simp [hm, hc]
          rw [hred]
          have hstep : List.IsPrefix s.wop (incWopStatus (putWop s op) op.desc).wop := by
            simp only [incWopStatus, putWop]
            exact List.prefix_append s.wop [op]
          have hlen : rest.length ≤ n := by
            simp only [List.length_cons] at hle
            omega
          exact hstep.trans (ihn rest hlen _ (added + 1))
        · have hred : addWaitingLoop now s (op :: rest) added
              = (cancelBury s op, added, false) := by
            rw [addWaitingLoop.eq_def]
            simp [hm, hc]
          rw [hred]
          show List.IsPrefix s.wop (cancelBury s op).wop
          rw [cancelBury_wop]

/-- C3 (amended): `PromoteWaitingOperator` is invoked only when the admission
loop of `AddWaitingOperator` runs to completion; when a unit is rejected
(orphan or mis-paired merge, or a failed `checkAddOperator`) the call
returns the loop's state directly without promoting, so every operator
waiting before the call is still at the front of the waiting bucket. -/
theorem C3_amended (s : ControllerState) (now : ℕ) (ops : List Operator)
    (hreject : (addWaitingLoop now s ops 0).2.2 = false) :
    AddWaitingOperator s now ops
      = ((addWaitingLoop now s ops 0).1, (addWaitingLoop now s ops 0).2.1) ∧
    List.IsPrefix s.wop (AddWaitingOperator s now ops).1.wop := by
  have h1 : AddWaitingOperator s now ops
      = ((addWaitingLoop now s ops 0).1, (addWaitingLoop now s ops 0).2.1) := by
    simp [AddWaitingOperator, hreject]
  refine ⟨h1, ?_⟩
  rw [h1]
  exact addWaitingLoop_wop_prefix now ops.length ops le_rfl s 0

theorem C3_witness :
    (addWaitingLoop 0 s3 [bad3] 0).2.2 = false ∧
    (AddWaitingOperator s3 0 [bad3]
        = ((addWaitingLoop 0 s3 [bad3] 0).1, (addWaitingLoop 0 s3 [bad3] 0).2.1) ∧
      List.IsPrefix s3.wop (AddWaitingOperator s3 0 [bad3]).1.wop) :=
  ⟨by decide, C3_amended s3 0 [bad3] (by decide)⟩

/-- A region for C4's scenario. -/
def reg4 : CRegion := { rid := 3, ver := 0, confVer := 0, finishedSteps := [], badSteps := [] }

def cluster4 : Cluster :=
  { regions := [(3, reg4)],
    stores := [(1, { limits := [(LimitType.addPeer, 0)] })], maxWaiting := 5 }

/-- A waiting operator whose influence needs 5 add-peer tokens on store 1,
which has none available. -/
def w4 : Operator :=
  { opId := 20, regionID := 3, desc := "ap", kindMerge := false, priorityLevel := 1,
    epochVer := 0, epochConfVer := 0,
    steps := [{ sid := 8, fastKind := false, confChange := true }], timeout := 600000,
    createTime := 0, histRecs := [], influence := [((1, LimitType.addPeer), 5)] }

def s4 : ControllerState := { initState cluster4 with wop := [w4], wopStatus := [("ap", 1)] }

/-- C4 (counterexample): a unit pulled from the waiting bucket that would
exceed a store limit is not held in waiting: `PromoteWaitingOperator` leaves
the bucket empty and the operator is cancelled and buried with terminal
status CANCELED. -/
theorem C4_counterexample :
    (PromoteWaitingOperator s4 0).wop = [] ∧
    (PromoteWaitingOperator s4 0).getStatus w4 = OpStatus.CANCELED ∧
    lookupA 3 (PromoteWaitingOperator s4 0).opRecords = some (20, OpStatus.CANCELED) := by
  decide

/-- The selection loop's result does not depend on the fuel, as long as the
fuel is at least the bucket length. -/
theorem promoteLoopF_fuel (now : ℕ) :
    ∀ f1 f2 : ℕ, ∀ s : ControllerState, s.wop.length ≤ f1 → s.wop.length ≤ f2 →
      promoteLoopF now f1 s = promoteLoopF now f2 s := by
  intro f1
  induction f1 with
  | zero =>
    intro f2 s h1 _
    have hnil : s.wop = [] := List.length_eq_zero.mp (Nat.le_zero.mp h1)
    cases f2 with
    | zero => rfl
    | succ f2 => simp [promoteLoopF, hnil]
  | succ f1 ih =>
    intro f2 s h1 h2
    cases f2 with
    | zero =>
      have hnil : s.wop = [] := List.length_eq_zero.mp (Nat.le_zero.mp h2)
      simp [promoteLoopF, hnil]
    | succ f2 =>
      cases hwop : s.wop with
      | nil => simp [promoteLoopF, hwop]
      | cons op rest =>
        have hr1 : rest.length ≤ f1 := by
          rw [hwop] at h1; simp only [List.length_cons] at h1; omega
        have hr2 : rest.length ≤ f2 := by
          rw [hwop] at h2; simp only [List.length_cons] at h2; omega
        simp only [promoteLoopF, hwop]
        by_cases hcond : (exceedStoreLimitLocked { s with wop := (takeUnit op rest).2 }
              (takeUnit op rest).1
            || !checkAddOperator { s with wop := (takeUnit op rest).2 } now
              (takeUnit op rest).1) = true
        · simp only [hcond, if_true]
          refine ih f2 _ ?_ ?_
          · simp only [decWopStatus, foldl_cancelBury_wop]
            exact le_trans (takeUnit_len op rest) hr1
          · simp only [decWopStatus, foldl_cancelBury_wop]
            exact le_trans (takeUnit_len op rest) hr2
        · simp only [hcond, if_false]
          simp at hcond
          simp [hcond.1, hcond.2]

/-- C4 (amended): when the unit pulled from the waiting bucket would exceed a
store limit, `PromoteWaitingOperator` cancels and buries every operator of
the unit, decrements its `wopStatus` entry, and continues the selection loop
with the rest of the bucket — the unit is discarded, not held in waiting
(direct `AddOperator` likewise rejects such a unit outright). -/
theorem C4_amended (s : ControllerState) (now : ℕ) (op : Operator) (rest : List Operator)
    (hw : s.wop = op :: rest)
    (hrej : exceedStoreLimitLocked { s with wop := (takeUnit op rest).2 }
      (takeUnit op rest).1 = true) :
    PromoteWaitingOperator s now =
      PromoteWaitingOperator
        (decWopStatus
          ((takeUnit op rest).1.foldl cancelBury { s with wop := (takeUnit op rest).2 })
          op.desc) now := by
  have h1 : promoteLoop s now
      = promoteLoopF now rest.length
          (decWopStatus
            ((takeUnit op rest).1.foldl cancelBury { s with wop := (takeUnit op rest).2 })
            op.desc) := by
    unfold promoteLoop
    rw [hw]
    simp only [List.length_cons, promoteLoopF, hw, hrej, Bool.true_or, if_true]
  have h2 : promoteLoopF now rest.length
        (decWopStatus
          ((takeUnit op rest).1.foldl cancelBury { s with wop := (takeUnit op rest).2 })
          op.desc)
      = promoteLoop
          (decWopStatus
            ((takeUnit op rest).1.foldl cancelBury { s with wop := (takeUnit op rest).2 })
            op.desc) now := by
    unfold promoteLoop
    refine promoteLoopF_fuel now rest.length _ _ ?_ le_rfl
    simp only [decWopStatus, foldl_cancelBury_wop]
    exact takeUnit_len op rest
  unfold PromoteWaitingOperator
  rw [h1.trans h2]

theorem C4_witness :
    s4.wop = [w4] ∧
    exceedStoreLimitLocked { s4 with wop := (takeUnit w4 []).2 } (takeUnit w4 []).1 = true ∧
    PromoteWaitingOperator s4 0 =
      PromoteWaitingOperator
        (decWopStatus ((takeUnit w4 []).1.foldl cancelBury { s4 with wop := (takeUnit w4 []).2 })
          w4.desc) 0 :=
  ⟨rfl, by decide, C4_amended s4 0 w4 [] rfl (by decide)⟩

/-! ### Claim C8: token conservation under reject -/

theorem cancelOp_events (s : ControllerState) (op : Operator) :
    ((cancelOp s op).1).events = s.events := by
  simp only [cancelOp]
  split <;> rfl

theorem cancelOp_cluster (s : ControllerState) (op : Operator) :
    ((cancelOp s op).1).cluster = s.cluster := by
  simp only [cancelOp]
  split <;> rfl

theorem buryOperator_events (s : ControllerState) (op : Operator) :
    (buryOperator s op).events = s.events := by
  simp only [buryOperator]
  split <;> simp [cancelOp_events]

theorem buryOperator_cluster (s : ControllerState) (op : Operator) :
    (buryOperator s op).cluster = s.cluster := by
  simp only [buryOperator]
  split <;> simp [cancelOp_cluster]

theorem cancelBury_events (s : ControllerState) (op : Operator) :
    (cancelBury s op).events = s.events := by
  simp [cancelBury, buryOperator_events, cancelOp_events]

theorem cancelBury_cluster (s : ControllerState) (op : Operator) :
    (cancelBury s op).cluster = s.cluster := by
  simp [cancelBury, buryOperator_cluster, cancelOp_cluster]

theorem foldl_cancelBury_events : ∀ (l : List Operator) (s : ControllerState),
    (l.foldl cancelBury s).events = s.events := by
  intro l
  induction l with
  | nil => intro s; rfl
  | cons op rest ih => intro s; rw [List.foldl_cons, ih, cancelBury_events]

theorem foldl_cancelBury_cluster : ∀ (l : List Operator) (s : ControllerState),
    (l.foldl cancelBury s).cluster = s.cluster := by
  intro l
  induction l with
  | nil => intro s; rfl
  | cons op rest ih => intro s; rw [List.foldl_cons, ih, cancelBury_cluster]

theorem promoteLoopF_no_take (now : ℕ) :
    ∀ (f : ℕ) (s : ControllerState),
      (promoteLoopF now f s).1.events = s.events ∧
      (promoteLoopF now f s).1.cluster = s.cluster := by
  intro f
  induction f with
  | zero => intro s; exact ⟨rfl, rfl⟩
  | succ f ih =>
    intro s
    cases hwop : s.wop with
    | nil => simp [promoteLoopF, hwop]
    | cons op rest =>
      simp only [promoteLoopF, hwop]
      split
      · have h := ih (decWopStatus
          ((takeUnit op rest).1.foldl cancelBury { s with wop := (takeUnit op rest).2 }) op.desc)
        rcases h with ⟨h1, h2⟩
        rw [h1, h2]
        simp [decWopStatus, foldl_cancelBury_events, foldl_cancelBury_cluster]
      · simp [decWopStatus]

/-- C8: when admission rejects a unit, no `Take` is performed on any store
limiter. First conjunct: a rejecting `AddOperator` call (store limits
exceeded or `checkAddOperator` failed) only cancels and buries its arguments
— its event trace and the cluster's limiters are unchanged. Second conjunct:
the selection loop of `PromoteWaitingOperator`, which performs all of
promotion's rejections, never appends a take event nor touches a limiter;
takes happen only in the installation of the finally admitted unit. -/
theorem C8_tokenConservation :
    (∀ (s : ControllerState) (now : ℕ) (ops : List Operator),
      (exceedStoreLimitLocked s ops || !(checkAddOperator s now ops)) = true →
        AddOperator s now ops = (ops.foldl cancelBury s, false) ∧
        (AddOperator s now ops).1.events = s.events ∧
        (AddOperator s now ops).1.cluster = s.cluster) ∧
    (∀ (s : ControllerState) (now : ℕ),
      (promoteLoop s now).1.events = s.events ∧
      (promoteLoop s now).1.cluster = s.cluster) := by
  constructor
  · intro s now ops hrej
    have h1 : AddOperator s now ops = (ops.foldl cancelBury s, false) := by
      simp [AddOperator, hrej]
    refine ⟨h1, ?_, ?_⟩
    · rw [h1]; exact foldl_cancelBury_events ops s
    · rw [h1]; exact foldl_cancelBury_cluster ops s
  · intro s now
    exact promoteLoopF_no_take now s.wop.length s

theorem C8_witness :
    (exceedStoreLimitLocked (initState cluster4) [w4]
      || !(checkAddOperator (initState cluster4) 0 [w4])) = true ∧
    (AddOperator (initState cluster4) 0 [w4]
        = ([w4].foldl cancelBury (initState cluster4), false) ∧
      (AddOperator (initState cluster4) 0 [w4]).1.events = (initState cluster4).events ∧
      (AddOperator (initState cluster4) 0 [w4]).1.cluster = (initState cluster4).cluster) ∧
    ((promoteLoop s4 0).1.events = s4.events ∧ (promoteLoop s4 0).1.cluster = s4.cluster) :=
  ⟨by decide, C8_tokenConservation.1 (initState cluster4) 0 [w4] (by decide),
    C8_tokenConservation.2 s4 0⟩

/-! ### Component-preservation lemmas for the controller operations -/

theorem getMut_setMut_self (s : ControllerState) (k : ℕ) (m : OpMut) :
    (s.setMut k m).getMut k = m := by
  simp [ControllerState.getMut, ControllerState.setMut, lookupA_setA_self]

theorem getMut_setMut_ne (s : ControllerState) {oid k : ℕ} (m : OpMut) (h : oid ≠ k) :
    (s.setMut k m).getMut oid = s.getMut oid := by
  simp [ControllerState.getMut, ControllerState.setMut, lookupA_setA_ne _ h]

theorem cancelOp_fast (s : ControllerState) (op : Operator) :
    ((cancelOp s op).1).fastOperators = s.fastOperators := by
  simp only [cancelOp]; split <;> rfl

theorem cancelOp_hist (s : ControllerState) (op : Operator) :
    ((cancelOp s op).1).histories = s.histories := by
  simp only [cancelOp]; split <;> rfl

theorem cancelOp_ops (s : ControllerState) (op : Operator) :
    ((cancelOp s op).1).operators = s.operators := by
  simp only [cancelOp]; split <;> rfl

theorem cancelOp_mut_ne (s : ControllerState) (op : Operator) {oid : ℕ} (h : oid ≠ op.opId) :
    ((cancelOp s op).1).getMut oid = s.getMut oid := by
  simp only [cancelOp]
  split
  · rfl
  · exact getMut_setMut_ne s _ h

theorem replaceOp_fast (s : ControllerState) (op : Operator) :
    ((replaceOp s op).1).fastOperators = s.fastOperators := by
  simp only [replaceOp]; split <;> rfl

theorem replaceOp_hist (s : ControllerState) (op : Operator) :
    ((replaceOp s op).1).histories = s.histories := by
  simp only [replaceOp]; split <;> rfl

theorem replaceOp_ops (s : ControllerState) (op : Operator) :
    ((replaceOp s op).1).operators = s.operators := by
  simp only [replaceOp]; split <;> rfl

theorem replaceOp_wop (s : ControllerState) (op : Operator) :
    ((replaceOp s op).1).wop = s.wop := by
  simp only [replaceOp]; split <;> rfl

theorem replaceOp_mut_ne (s : ControllerState) (op : Operator) {oid : ℕ} (h : oid ≠ op.opId) :
    ((replaceOp s op).1).getMut oid = s.getMut oid := by
  simp only [replaceOp]
  split
  · exact getMut_setMut_ne s _ h
  · rfl

theorem startOp_fast (s : ControllerState) (op : Operator) (now : ℕ) :
    ((startOp s op now).1).fastOperators = s.fastOperators := by
  simp only [startOp]; split <;> rfl

theorem startOp_hist (s : ControllerState) (op : Operator) (now : ℕ) :
    ((startOp s op now).1).histories = s.histories := by
  simp only [startOp]; split <;> rfl

theorem startOp_ops (s : ControllerState) (op : Operator) (now : ℕ) :
    ((startOp s op now).1).operators = s.operators := by
  simp only [startOp]; split <;> rfl

theorem startOp_wop (s : ControllerState) (op : Operator) (now : ℕ) :
    ((startOp s op now).1).wop = s.wop := by
  simp only [startOp]; split <;> rfl

theorem startOp_mut_ne (s : ControllerState) (op : Operator) (now : ℕ) {oid : ℕ}
    (h : oid ≠ op.opId) : ((startOp s op now).1).getMut oid = s.getMut oid := by
  simp only [startOp]
  split
  · exact getMut_setMut_ne s _ h
  · rfl

theorem opCheck_fast (s : ControllerState) (op : Operator) (r : CRegion) (now : ℕ) :
    ((opCheck s op r now).1).fastOperators = s.fastOperators := by
  simp only [opCheck]
  repeat' split
  all_goals rfl

theorem opCheck_hist (s : ControllerState) (op : Operator) (r : CRegion) (now : ℕ) :
    ((opCheck s op r now).1).histories = s.histories := by
  simp only [opCheck]
  repeat' split
  all_goals rfl

theorem opCheck_ops (s : ControllerState) (op : Operator) (r : CRegion) (now : ℕ) :
    ((opCheck s op r now).1).operators = s.operators := by
  simp only [opCheck]
  repeat' split
  all_goals rfl

theorem opCheck_wop (s : ControllerState) (op : Operator) (r : CRegion) (now : ℕ) :
    ((opCheck s op r now).1).wop = s.wop := by
  simp only [opCheck]
  repeat' split
  all_goals rfl

theorem opCheck_mut_ne (s : ControllerState) (op : Operator) (r : CRegion) (now : ℕ)
    {oid : ℕ} (h : oid ≠ op.opId) :
    ((opCheck s op r now).1).getMut oid = s.getMut oid := by
  simp only [opCheck]
  repeat' split
  all_goals first
    | rfl
    | exact getMut_setMut_ne s _ h

theorem buryOperator_fast (s : ControllerState) (op : Operator) :
    (buryOperator s op).fastOperators = s.fastOperators := by
  simp only [buryOperator]
  split <;> simp [cancelOp_fast]

theorem buryOperator_hist (s : ControllerState) (op : Operator) :
    (buryOperator s op).histories = s.histories := by
  simp only [buryOperator]
  split <;> simp [cancelOp_hist]

theorem buryOperator_ops (s : ControllerState) (op : Operator) :
    (buryOperator s op).operators = s.operators := by
  simp only [buryOperator]
  split <;> simp [cancelOp_ops]

theorem buryOperator_mut_ne (s : ControllerState) (op : Operator) {oid : ℕ}
    (h : oid ≠ op.opId) : (buryOperator s op).getMut oid = s.getMut oid := by
  simp only [buryOperator]
  split
  · rfl
  · exact cancelOp_mut_ne s op h

theorem removeOperatorLocked_fast (s : ControllerState) (op : Operator) :
    ((removeOperatorLocked s op).1).fastOperators = s.fastOperators := by
  simp only [removeOperatorLocked]
  repeat' split
  all_goals rfl

theorem removeOperatorLocked_hist (s : ControllerState) (op : Operator) :
    ((removeOperatorLocked s op).1).histories = s.histories := by
  simp only [removeOperatorLocked]
  repeat' split
  all_goals rfl

theorem removeOperatorLocked_muts (s : ControllerState) (op : Operator) :
    ((removeOperatorLocked s op).1).muts = s.muts := by
  simp only [removeOperatorLocked]
  repeat' split
  all_goals rfl

theorem removeOperatorLocked_wop (s : ControllerState) (op : Operator) :
    ((removeOperatorLocked s op).1).wop = s.wop := by
  simp only [removeOperatorLocked]
  repeat' split
  all_goals rfl

theorem getMut_muts_eq {s s' : ControllerState} (h : s'.muts = s.muts) (oid : ℕ) :
    s'.getMut oid = s.getMut oid := by
  simp [ControllerState.getMut, h]

theorem cancelBury_fast (s : ControllerState) (op : Operator) :
    (cancelBury s op).fastOperators = s.fastOperators := by
  simp [cancelBury, buryOperator_fast, cancelOp_fast]

theorem cancelBury_hist (s : ControllerState) (op : Operator) :
    (cancelBury s op).histories = s.histories := by
  simp [cancelBury, buryOperator_hist, cancelOp_hist]

theorem cancelBury_ops (s : ControllerState) (op : Operator) :
    (cancelBury s op).operators = s.operators := by
  simp [cancelBury, buryOperator_ops, cancelOp_ops]

theorem cancelBury_mut_ne (s : ControllerState) (op : Operator) {oid : ℕ}
    (h : oid ≠ op.opId) : (cancelBury s op).getMut oid = s.getMut oid := by
  rw [cancelBury, buryOperator_mut_ne _ _ h, cancelOp_mut_ne _ _ h]

theorem foldl_cancelBury_fast : ∀ (l : List Operator) (s : ControllerState),
    (l.foldl cancelBury s).fastOperators = s.fastOperators := by
  intro l
  induction l with
  | nil => intro s; rfl
  | cons op rest ih => intro s; rw [List.foldl_cons, ih, cancelBury_fast]

theorem foldl_cancelBury_hist : ∀ (l : List Operator) (s : ControllerState),
    (l.foldl cancelBury s).histories = s.histories := by
  intro l
  induction l with
  | nil => intro s; rfl
  | cons op rest ih => intro s; rw [List.foldl_cons, ih, cancelBury_hist]

theorem foldl_cancelBury_ops : ∀ (l : List Operator) (s : ControllerState),
    (l.foldl cancelBury s).operators = s.operators := by
  intro l
  induction l with
  | nil => intro s; rfl
  | cons op rest ih => intro s; rw [List.foldl_cons, ih, cancelBury_ops]

theorem foldl_cancelBury_mut_ne {oid : ℕ} :
    ∀ (l : List Operator) (s : ControllerState), (∀ w ∈ l, oid ≠ w.opId) →
      (l.foldl cancelBury s).getMut oid = s.getMut oid := by
  intro l
  induction l with
  | nil => intro s _; rfl
  | cons op rest ih =>
    intro s h
    rw [List.foldl_cons, ih _ (fun w hw => h w (by simp [hw])),
      cancelBury_mut_ne _ _ (h op (by simp))]

theorem takeLoop_comp (op : Operator) (infl : List ((ℕ × LimitType) × ℤ)) :
    ∀ (l : List (ℕ × LimitType)) (s : ControllerState),
      ((takeLoop op infl s l).1).fastOperators = s.fastOperators ∧
      ((takeLoop op infl s l).1).histories = s.histories ∧
      ((takeLoop op infl s l).1).operators = s.operators ∧
      ((takeLoop op infl s l).1).muts = s.muts ∧
      ((takeLoop op infl s l).1).wop = s.wop := by
  intro l
  induction l with
  | nil => intro s; exact ⟨rfl, rfl, rfl, rfl, rfl⟩
  | cons p rest ih =>
    intro s
    obtain ⟨storeID, k⟩ := p
    simp only [takeLoop]
    cases hlk : lookupA storeID s.cluster.stores with
    | none => exact ⟨rfl, rfl, rfl, rfl, rfl⟩
    | some store =>
      dsimp only
      cases hgl : getStoreLimit store k with
      | none => exact ih s
      | some available =>
        dsimp only
        by_cases hz : GetStepCost infl storeID k = 0
        · rw [if_pos hz]; exact ih s
        · rw [if_neg hz]; exact ih _

theorem takeLoop_fast (op : Operator) (infl : List ((ℕ × LimitType) × ℤ))
    (s : ControllerState) (l : List (ℕ × LimitType)) :
    ((takeLoop op infl s l).1).fastOperators = s.fastOperators :=
  (takeLoop_comp op infl l s).1

theorem takeLoop_hist (op : Operator) (infl : List ((ℕ × LimitType) × ℤ))
    (s : ControllerState) (l : List (ℕ × LimitType)) :
    ((takeLoop op infl s l).1).histories = s.histories :=
  (takeLoop_comp op infl l s).2.1

theorem takeLoop_ops (op : Operator) (infl : List ((ℕ × LimitType) × ℤ))
    (s : ControllerState) (l : List (ℕ × LimitType)) :
    ((takeLoop op infl s l).1).operators = s.operators :=
  (takeLoop_comp op infl l s).2.2.1

theorem takeLoop_muts (op : Operator) (infl : List ((ℕ × LimitType) × ℤ))
    (s : ControllerState) (l : List (ℕ × LimitType)) :
    ((takeLoop op infl s l).1).muts = s.muts :=
  (takeLoop_comp op infl l s).2.2.2.1

theorem takeLoop_wop (op : Operator) (infl : List ((ℕ × LimitType) × ℤ))
    (s : ControllerState) (l : List (ℕ × LimitType)) :
    ((takeLoop op infl s l).1).wop = s.wop :=
  (takeLoop_comp op infl l s).2.2.2.2

/-! ### Association-list key machinery -/

theorem lookupA_none_of_not_mem {κ β : Type} [DecidableEq κ] {k : κ} :
    ∀ {l : List (κ × β)}, k ∉ l.map Prod.fst → lookupA k l = none := by
  intro l
  induction l with
  | nil => intro _; rfl
  | cons kv rest ih =>
    intro h
    simp only [List.map_cons, List.mem_cons] at h
    push_neg at h
    simp [lookupA, Ne.symm h.1, ih h.2]

theorem keys_delA_sublist {κ β : Type} [DecidableEq κ] (k : κ) :
    ∀ l : List (κ × β), ((delA k l).map Prod.fst).Sublist (l.map Prod.fst) := by
  intro l
  induction l with
  | nil => simp [delA]
  | cons kv rest ih =>
    by_cases h : kv.1 = k
    · simp only [delA, if_pos h, List.map_cons]
      exact List.sublist_cons_self _ _
    · simp only [delA, if_neg h, List.map_cons]
      exact ih.cons₂ _

theorem nodup_delA {κ β : Type} [DecidableEq κ] (k : κ) {l : List (κ × β)}
    (h : (l.map Prod.fst).Nodup) : ((delA k l).map Prod.fst).Nodup :=
  (keys_delA_sublist k l).nodup h

theorem mem_keys_setA {κ β : Type} [DecidableEq κ] (k : κ) (v : β) :
    ∀ (l : List (κ × β)) (x : κ), x ∈ (setA k v l).map Prod.fst → x = k ∨ x ∈ l.map Prod.fst := by
  intro l
  induction l with
  | nil => intro x hx; simp [setA] at hx; exact Or.inl hx
  | cons kv rest ih =>
    intro x hx
    by_cases h : kv.1 = k
    · simp only [setA, if_pos h, List.map_cons, List.mem_cons] at hx
      rcases hx with hx | hx
      · exact Or.inl hx
      · exact Or.inr (by simp [hx])
    · simp only [setA, if_neg h, List.map_cons, List.mem_cons] at hx
      rcases hx with hx | hx
      · exact Or.inr (by simp [hx])
      · rcases ih x hx with h1 | h1
        · exact Or.inl h1
        · exact Or.inr (by simp [h1])

theorem nodup_setA {κ β : Type} [DecidableEq κ] (k : κ) (v : β) :
    ∀ {l : List (κ × β)}, (l.map Prod.fst).Nodup → ((setA k v l).map Prod.fst).Nodup := by
  intro l
  induction l with
  | nil => intro _; simp [setA]
  | cons kv rest ih =>
    intro h
    simp only [List.map_cons, List.nodup_cons] at h
    by_cases hk : kv.1 = k
    · simp only [setA, if_pos hk, List.map_cons, List.nodup_cons]
      exact ⟨hk ▸ h.1, h.2⟩
    · simp only [setA, if_neg hk, List.map_cons, List.nodup_cons]
      refine ⟨fun hx => ?_, ih h.2⟩
      rcases mem_keys_setA k v rest kv.1 hx with h1 | h1
      · exact hk h1
      · exact h.1 h1

theorem lookupA_delA_self {κ β : Type} [DecidableEq κ] (k : κ) :
    ∀ {l : List (κ × β)}, (l.map Prod.fst).Nodup → lookupA k (delA k l) = none := by
  intro l
  induction l with
  | nil => intro _; rfl
  | cons kv rest ih =>
    intro h
    simp only [List.map_cons, List.nodup_cons] at h
    by_cases hk : kv.1 = k
    · simp only [delA, if_pos hk]
      exact lookupA_none_of_not_mem (hk ▸ h.1)
    · simp only [delA, if_neg hk, lookupA, if_neg hk]
      exact ih h.2

theorem lookup_delA_some {κ β : Type} [DecidableEq κ] {k rid : κ} {l : List (κ × β)} {v : β}
    (hnd : (l.map Prod.fst).Nodup) (h : lookupA rid (delA k l) = some v) :
    lookupA rid l = some v := by
  by_cases hk : rid = k
  · subst hk
    rw [lookupA_delA_self rid hnd] at h
    exact absurd h (by simp)
  · rwa [lookupA_delA_ne hk] at h

theorem lookup_setA_some {κ β : Type} [DecidableEq κ] {k rid : κ} {l : List (κ × β)} {v u : β}
    (h : lookupA rid (setA k v l) = some u) :
    (rid = k ∧ u = v) ∨ lookupA rid l = some u := by
  by_cases hk : rid = k
  · subst hk
    rw [lookupA_setA_self] at h
    exact Or.inl ⟨rfl, (Option.some_inj.mp h).symm⟩
  · exact Or.inr (by rwa [lookupA_setA_ne v hk] at h)

theorem removeOperatorLocked_ops_cases (s : ControllerState) (op : Operator) :
    ((removeOperatorLocked s op).1).operators = s.operators ∨
    ((removeOperatorLocked s op).1).operators = delA op.regionID s.operators := by
  simp only [removeOperatorLocked]
  repeat' split
  all_goals first
    | exact Or.inl rfl
    | exact Or.inr rfl

theorem removeOperatorLocked_del {s : ControllerState} {op cur : Operator}
    (hlk : lookupA op.regionID s.operators = some cur) (hid : cur.opId = op.opId) :
    removeOperatorLocked s op =
      ({ s with operators := delA op.regionID s.operators }, true) := by
  rw [removeOperatorLocked, hlk]
  simp [hid]

/-- Installing into a map with no entry for the operator's region: the victim
phase of `addOperatorLocked` is skipped. -/
theorem addOperatorLocked_none {s : ControllerState} {u : Operator} (now : ℕ)
    (hlk : lookupA u.regionID s.operators = none) :
    addOperatorLocked s now u =
      (let p2 := startOp s u now
       if p2.2 then
         let s3 := { p2.1 with operators := setA u.regionID u p2.1.operators }
         let infl := NewTotalOpInfluence s3 [u]
         let p4 := takeLoop u infl s3 (influencePairs infl)
         if p4.2 then
           let p5 : ControllerState × Option OpStep :=
             match lookupA u.regionID p4.1.cluster.regions with
             | some region =>
               let cs := opCheck p4.1 u region now
               match cs.2 with
               | some st => (SendScheduleCommand cs.1 region st DispatchFromCreate, some st)
               | none => (cs.1, none)
             | none => (p4.1, none)
           ({ p5.1 with opNotifierQueue :=
               p5.1.opNotifierQueue ++ [(u.opId, getNextPushOperatorTime p5.2 now)] }, true)
         else (p4.1, false)
       else (p2.1, false)) := by
  rw [addOperatorLocked, hlk]

/-- Installing into a map whose entry for the region is a well-keyed victim:
`addOperatorLocked` equals itself run after the victim is removed, replaced
and buried. -/
theorem addOperatorLocked_victim {s : ControllerState} {u old : Operator} (now : ℕ)
    (hlk : lookupA u.regionID s.operators = some old)
    (hreg : old.regionID = u.regionID)
    (hnd : (s.operators.map Prod.fst).Nodup) :
    addOperatorLocked s now u =
      addOperatorLocked (buryOperator (replaceOp (removeOperatorLocked s old).1 old).1 old) now u := by
  have hops : (buryOperator (replaceOp (removeOperatorLocked s old).1 old).1 old).operators
      = delA u.regionID s.operators := by
    rw [buryOperator_ops, replaceOp_ops,
      removeOperatorLocked_del (by rw [hreg]; exact hlk) rfl]
    rw [hreg]
  have hnone :
      lookupA u.regionID (buryOperator (replaceOp (removeOperatorLocked s old).1 old).1 old).operators
        = none := by
    rw [hops]
    exact lookupA_delA_self u.regionID hnd
  conv_lhs => rw [addOperatorLocked]
  rw [hlk]
  conv_rhs => rw [addOperatorLocked]
  rw [hnone]

theorem startOp_cases (s : ControllerState) (op : Operator) (now : ℕ) :
    startOp s op now =
      (s.setMut op.opId
        { s.getMut op.opId with status := .STARTED, startTime := now }, true) ∨
    startOp s op now = (s, false) := by
  simp only [startOp]
  split
  · exact Or.inl rfl
  · exact Or.inr rfl

theorem opCheck_lookup_ne (s : ControllerState) (op : Operator) (r : CRegion) (now : ℕ)
    {oid : ℕ} (h : oid ≠ op.opId) :
    lookupA oid (((opCheck s op r now).1).muts) = lookupA oid s.muts := by
  simp only [opCheck]
  repeat' split
  all_goals first
    | rfl
    | simp [ControllerState.setMut, lookupA_setA_ne _ h]

/-- What a region's first `Dispatch`-relevant operator keeps of the controller
when `addOperatorLocked` finds no running operator for the new operator's
region: the caches, histories and waiting bucket are untouched, other
operators' mutable state is untouched, and the running map either is
unchanged (start failure) or gains exactly the new operator's binding. -/
theorem addOperatorLocked_pres0 (s : ControllerState) (now : ℕ) (u : Operator) {oid : ℕ}
    (h : oid ≠ u.opId) (hlk : lookupA u.regionID s.operators = none) :
    ((addOperatorLocked s now u).1).fastOperators = s.fastOperators ∧
    ((addOperatorLocked s now u).1).histories = s.histories ∧
    ((addOperatorLocked s now u).1).wop = s.wop ∧
    ((addOperatorLocked s now u).1).getMut oid = s.getMut oid ∧
    (((addOperatorLocked s now u).1).operators = s.operators ∨
      ((addOperatorLocked s now u).1).operators = setA u.regionID u s.operators) := by
  rw [addOperatorLocked_none now hlk]
  rcases startOp_cases s u now with h2 | h2 <;> rw [h2]
  · refine ⟨?_, ?_, ?_, ?_, Or.inr ?_⟩
    all_goals
      dsimp only
      simp only [eq_self_iff_true, if_true]
      repeat' split
      all_goals
        simp [SendScheduleCommand, ControllerState.getMut, ControllerState.setMut,
          opCheck_fast, opCheck_hist, opCheck_ops, opCheck_wop, opCheck_lookup_ne,
          takeLoop_fast, takeLoop_hist, takeLoop_ops, takeLoop_muts, takeLoop_wop,
          lookupA_setA_ne, h]
  · exact ⟨rfl, rfl, rfl, rfl, Or.inl rfl⟩

/-- Well-formedness of the running-operator map: every entry is keyed by its
operator's region and keys are unique, as Go map semantics guarantees for a
map written only at `op.RegionID()`. -/
def opsWF (s : ControllerState) : Prop :=
  (∀ rid v, lookupA rid s.operators = some v → v.regionID = rid) ∧
  (s.operators.map Prod.fst).Nodup

/-- No entry of the running map carries the given operator id. -/
def opAbsent (oid : ℕ) (s : ControllerState) : Prop :=
  ∀ rid v, lookupA rid s.operators = some v → oid ≠ v.opId

theorem opsWF_of_ops_eq {s s' : ControllerState} (h : s'.operators = s.operators)
    (hwf : opsWF s) : opsWF s' := by
  unfold opsWF at hwf ⊢
  rw [h]
  exact hwf

theorem opAbsent_of_ops_eq {oid : ℕ} {s s' : ControllerState} (h : s'.operators = s.operators)
    (hno : opAbsent oid s) : opAbsent oid s' := by
  unfold opAbsent at hno ⊢
  rw [h]
  exact hno

theorem victim_fast (s : ControllerState) (old : Operator) :
    (buryOperator (replaceOp (removeOperatorLocked s old).1 old).1 old).fastOperators
      = s.fastOperators := by
  rw [buryOperator_fast, replaceOp_fast, removeOperatorLocked_fast]

theorem victim_hist (s : ControllerState) (old : Operator) :
    (buryOperator (replaceOp (removeOperatorLocked s old).1 old).1 old).histories
      = s.histories := by
  rw [buryOperator_hist, replaceOp_hist, removeOperatorLocked_hist]

theorem victim_wop (s : ControllerState) (old : Operator) :
    (buryOperator (replaceOp (removeOperatorLocked s old).1 old).1 old).wop = s.wop := by
  rw [buryOperator_wop, replaceOp_wop, removeOperatorLocked_wop]

theorem victim_mut_ne (s : ControllerState) (old : Operator) {oid : ℕ} (h : oid ≠ old.opId) :
    (buryOperator (replaceOp (removeOperatorLocked s old).1 old).1 old).getMut oid
      = s.getMut oid := by
  rw [buryOperator_mut_ne _ _ h, replaceOp_mut_ne _ _ h,
    getMut_muts_eq (removeOperatorLocked_muts s old)]

/-- One installation step: `addOperatorLocked` preserves the fast cache, the
histories, the waiting bucket and the map well-formedness, and — when the
observed operator id is neither the new operator's nor on any map entry —
that operator's mutable state and its absence from the map. -/
theorem addOperatorLocked_step (s : ControllerState) (now : ℕ) (u : Operator) {oid : ℕ}
    (h : oid ≠ u.opId) (hwf : opsWF s) :
    ((addOperatorLocked s now u).1).fastOperators = s.fastOperators ∧
    ((addOperatorLocked s now u).1).histories = s.histories ∧
    ((addOperatorLocked s now u).1).wop = s.wop ∧
    opsWF (addOperatorLocked s now u).1 ∧
    (opAbsent oid s →
      ((addOperatorLocked s now u).1).getMut oid = s.getMut oid ∧
      opAbsent oid (addOperatorLocked s now u).1) := by
  cases hlk : lookupA u.regionID s.operators with
  | none =>
    obtain ⟨hf, hh, hw, hm, hops⟩ := addOperatorLocked_pres0 s now u h hlk
    refine ⟨hf, hh, hw, ?_, fun hno => ⟨hm, ?_⟩⟩
    · rcases hops with hops | hops
      · exact opsWF_of_ops_eq hops hwf
      · refine ⟨?_, ?_⟩
        · intro rid v hv
          rw [hops] at hv
          rcases lookup_setA_some hv with ⟨hr, hvU⟩ | hv'
          · rw [hvU, hr]
          · exact hwf.1 rid v hv'
        · rw [hops]
          exact nodup_setA u.regionID u hwf.2
    · rcases hops with hops | hops
      · exact opAbsent_of_ops_eq hops hno
      · intro rid v hv
        rw [hops] at hv
        rcases lookup_setA_some hv with ⟨hr, hvU⟩ | hv'
        · rw [hvU]; exact h
        · exact hno rid v hv'
  | some old =>
    have hreg : old.regionID = u.regionID := hwf.1 _ _ hlk
    rw [addOperatorLocked_victim now hlk hreg hwf.2]
    have hvops :
        (buryOperator (replaceOp (removeOperatorLocked s old).1 old).1 old).operators
          = delA u.regionID s.operators := by
      rw [buryOperator_ops, replaceOp_ops,
        removeOperatorLocked_del (by rw [hreg]; exact hlk) rfl]
      rw [hreg]
    have hvwf : opsWF (buryOperator (replaceOp (removeOperatorLocked s old).1 old).1 old) := by
      constructor
      · intro rid v hv
        rw [hvops] at hv
        exact hwf.1 rid v (lookup_delA_some hwf.2 hv)
      · rw [hvops]
        exact nodup_delA u.regionID hwf.2
    have hvlk :
        lookupA u.regionID
          (buryOperator (replaceOp (removeOperatorLocked s old).1 old).1 old).operators
          = none := by
      rw [hvops]
      exact lookupA_delA_self u.regionID hwf.2
    obtain ⟨hf, hh, hw, hm, hops⟩ :=
      addOperatorLocked_pres0 (buryOperator (replaceOp (removeOperatorLocked s old).1 old).1 old)
        now u h hvlk
    refine ⟨by rw [hf, victim_fast], by rw [hh, victim_hist], by rw [hw, victim_wop], ?_,
      fun hno => ?_⟩
    · rcases hops with hops | hops
      · exact opsWF_of_ops_eq hops hvwf
      · refine ⟨?_, ?_⟩
        · intro rid v hv
          rw [hops] at hv
          rcases lookup_setA_some hv with ⟨hr, hvU⟩ | hv'
          · rw [hvU, hr]
          · exact hvwf.1 rid v hv'
        · rw [hops]
          exact nodup_setA u.regionID u hvwf.2
    · have hnold : oid ≠ old.opId := hno u.regionID old hlk
      have hvno : opAbsent oid (buryOperator (replaceOp (removeOperatorLocked s old).1 old).1 old) := by
        intro rid v hv
        rw [hvops] at hv
        exact hno rid v (lookup_delA_some hwf.2 hv)
      refine ⟨by rw [hm, victim_mut_ne _ _ hnold], ?_⟩
      rcases hops with hops | hops
      · exact opAbsent_of_ops_eq hops hvno
      · intro rid v hv
        rw [hops] at hv
        rcases lookup_setA_some hv with ⟨hr, hvU⟩ | hv'
        · rw [hvU]; exact h
        · exact hvno rid v hv'

/-- The installation loop preserves what each `addOperatorLocked` step
preserves. -/
theorem installOps_pres (now : ℕ) {oid : ℕ} :
    ∀ (l : List Operator) (s : ControllerState), (∀ u ∈ l, oid ≠ u.opId) → opsWF s →
      ((installOps now s l).1).fastOperators = s.fastOperators ∧
      ((installOps now s l).1).histories = s.histories ∧
      ((installOps now s l).1).wop = s.wop ∧
      opsWF (installOps now s l).1 ∧
      (opAbsent oid s →
        ((installOps now s l).1).getMut oid = s.getMut oid ∧
        opAbsent oid (installOps now s l).1) := by
  intro l
  induction l with
  | nil => intro s _ hwf; exact ⟨rfl, rfl, rfl, hwf, fun hno => ⟨rfl, hno⟩⟩
  | cons u rest ih =>
    intro s hl hwf
    have hu : oid ≠ u.opId := hl u (by simp)
    obtain ⟨hf, hh, hw, hwf', hmut⟩ := addOperatorLocked_step s now u hu hwf
    simp only [installOps]
    split
    · obtain ⟨hf2, hh2, hw2, hwf2, hmut2⟩ :=
        ih (addOperatorLocked s now u).1 (fun w hwr => hl w (by simp [hwr])) hwf'
      refine ⟨by rw [hf2, hf], by rw [hh2, hh], by rw [hw2, hw], hwf2, fun hno => ?_⟩
      obtain ⟨hm1, hno1⟩ := hmut hno
      obtain ⟨hm2, hno2⟩ := hmut2 hno1
      exact ⟨by rw [hm2, hm1], hno2⟩
    · exact ⟨hf, hh, hw, hwf', hmut⟩

theorem takeUnit_mem (op : Operator) (rest : List Operator) :
    (∀ w ∈ (takeUnit op rest).1, w ∈ op :: rest) ∧
    (∀ w ∈ (takeUnit op rest).2, w ∈ rest) := by
  unfold takeUnit
  repeat' split
  all_goals
    constructor <;> intro w h1 <;> (try simp at h1) <;> (try simp) <;> tauto

/-- The promotion selection loop preserves the fast cache, histories and the
running map, and — when the observed operator id is not in the waiting
bucket — that operator's mutable state; the returned unit comes from the
bucket. -/
theorem promoteLoopF_pres (now : ℕ) {oid : ℕ} :
    ∀ (fuel : ℕ) (s : ControllerState), (∀ w ∈ s.wop, oid ≠ w.opId) →
      ((promoteLoopF now fuel s).1).fastOperators = s.fastOperators ∧
      ((promoteLoopF now fuel s).1).histories = s.histories ∧
      ((promoteLoopF now fuel s).1).operators = s.operators ∧
      ((promoteLoopF now fuel s).1).getMut oid = s.getMut oid ∧
      (∀ w ∈ (promoteLoopF now fuel s).2, w ∈ s.wop) := by
  intro fuel
  induction fuel with
  | zero => intro s _; exact ⟨rfl, rfl, rfl, rfl, by simp [promoteLoopF]⟩
  | succ fuel ih =>
    intro s hwop
    simp only [promoteLoopF]
    cases hw : s.wop with
    | nil => exact ⟨rfl, rfl, rfl, rfl, by simp⟩
    | cons op rest =>
      dsimp only
      rw [hw] at hwop
      have hmem1 : ∀ w ∈ (takeUnit op rest).1, w ∈ op :: rest :=
        (takeUnit_mem op rest).1
      have hmem2 : ∀ w ∈ (takeUnit op rest).2, w ∈ op :: rest := fun w h1 =>
        List.mem_cons_of_mem op ((takeUnit_mem op rest).2 w h1)
      split
      · have hrec := ih
          (decWopStatus ((takeUnit op rest).1.foldl cancelBury { s with wop := (takeUnit op rest).2 }) op.desc)
          (by
            intro w hmem
            have : w ∈ (takeUnit op rest).2 := by
              simpa [decWopStatus, foldl_cancelBury_wop] using hmem
            exact hwop w (hmem2 w this))
        obtain ⟨hf, hh, ho, hm, hsub⟩ := hrec
        refine ⟨hf.trans (foldl_cancelBury_fast _ _), hh.trans (foldl_cancelBury_hist _ _),
          ho.trans (foldl_cancelBury_ops _ _),
          hm.trans (foldl_cancelBury_mut_ne _ _ (fun w h1 => hwop w (hmem1 w h1))), ?_⟩
        · intro w hmemw
          have := hsub w hmemw
          have h2 : w ∈ (takeUnit op rest).2 := by
            simpa [decWopStatus, foldl_cancelBury_wop] using this
          exact hmem2 w h2
      · exact ⟨rfl, rfl, rfl, rfl, fun w h1 => hmem1 w h1⟩

/-- `PromoteWaitingOperator` preserves the fast cache and histories, the map
well-formedness, and — for an operator id absent from both the waiting bucket
and the running map — that operator's mutable state and map absence. -/
theorem promote_pres (s : ControllerState) (now : ℕ) {oid : ℕ}
    (hwop : ∀ w ∈ s.wop, oid ≠ w.opId) (hwf : opsWF s) :
    (PromoteWaitingOperator s now).fastOperators = s.fastOperators ∧
    (PromoteWaitingOperator s now).histories = s.histories ∧
    (opAbsent oid s →
      (PromoteWaitingOperator s now).getMut oid = s.getMut oid ∧
      opAbsent oid (PromoteWaitingOperator s now)) := by
  obtain ⟨hf1, hh1, ho1, hm1, hsub⟩ := promoteLoopF_pres now s.wop.length s hwop
  have hwf1 : opsWF (promoteLoopF now s.wop.length s).1 := opsWF_of_ops_eq ho1 hwf
  have hunit : ∀ u ∈ (promoteLoopF now s.wop.length s).2, oid ≠ u.opId := fun u h1 =>
    hwop u (hsub u h1)
  obtain ⟨hf2, hh2, _, _, hmut2⟩ :=
    installOps_pres now (promoteLoopF now s.wop.length s).2 (promoteLoopF now s.wop.length s).1
      hunit hwf1
  refine ⟨hf2.trans hf1, hh2.trans hh1, fun hno => ?_⟩
  have hno1 : opAbsent oid (promoteLoopF now s.wop.length s).1 := opAbsent_of_ops_eq ho1 hno
  obtain ⟨hm2, hno2⟩ := hmut2 hno1
  exact ⟨hm2.trans hm1, hno2⟩

theorem cancelOp_end {s : ControllerState} {op : Operator}
    (h : IsEndStatus (s.getStatus op) = true) : cancelOp s op = (s, false) := by
  have h2 : IsEndStatus (s.getMut op.opId).status = true := h
  simp [cancelOp, h2]

theorem buryOperator_end {s : ControllerState} {op : Operator}
    (h : IsEndStatus (s.getStatus op) = true) :
    buryOperator s op =
      { s with opRecords := setA op.regionID (op.opId, s.getStatus op) s.opRecords } := by
  rw [buryOperator]
  rw [if_pos h]

/-- Removing an operator whose status is terminal never touches any mutable
operator state: `Cancel` refuses and the burial is a pure record write. -/
theorem RemoveOperator_muts_end {s : ControllerState} {op : Operator}
    (h : IsEndStatus (s.getStatus op) = true) :
    ((RemoveOperator s op).1).muts = s.muts := by
  rw [RemoveOperator]
  split
  · have hm : ((removeOperatorLocked s op).1).muts = s.muts := removeOperatorLocked_muts s op
    have hst : (removeOperatorLocked s op).1.getStatus op = s.getStatus op := by
      show ((removeOperatorLocked s op).1.getMut op.opId).status = (s.getMut op.opId).status
      rw [getMut_muts_eq hm]
    rw [cancelOp_end (by rw [hst]; exact h), buryOperator_end (by rw [hst]; exact h)]
    exact hm
  · exact removeOperatorLocked_muts s op

theorem RemoveOperator_fast (s : ControllerState) (op : Operator) :
    ((RemoveOperator s op).1).fastOperators = s.fastOperators := by
  rw [RemoveOperator]
  split
  · rw [buryOperator_fast, cancelOp_fast, removeOperatorLocked_fast]
  · exact removeOperatorLocked_fast s op

theorem RemoveOperator_hist (s : ControllerState) (op : Operator) :
    ((RemoveOperator s op).1).histories = s.histories := by
  rw [RemoveOperator]
  split
  · rw [buryOperator_hist, cancelOp_hist, removeOperatorLocked_hist]
  · exact removeOperatorLocked_hist s op

theorem RemoveOperator_wop (s : ControllerState) (op : Operator) :
    ((RemoveOperator s op).1).wop = s.wop := by
  rw [RemoveOperator]
  split
  · rw [buryOperator_wop, cancelOp_wop, removeOperatorLocked_wop]
  · exact removeOperatorLocked_wop s op

theorem RemoveOperator_ops (s : ControllerState) (op : Operator) :
    ((RemoveOperator s op).1).operators = ((removeOperatorLocked s op).1).operators := by
  rw [RemoveOperator]
  split
  · rw [buryOperator_ops, cancelOp_ops]
  · rfl

/-- `Check` can advance the step index and flip the status, but it never
rewrites an operator's recorded start time. -/
theorem opCheck_startTime (s : ControllerState) (op : Operator) (r : CRegion) (now : ℕ) :
    ((((opCheck s op r now).1).getMut op.opId)).startTime = ((s.getMut op.opId)).startTime := by
  simp only [opCheck]
  repeat' split
  all_goals simp [ControllerState.setMut, ControllerState.getMut, lookupA_setA_self]

theorem pushHistory_muts (s : ControllerState) (op : Operator) :
    (pushHistory s op).muts = s.muts := rfl

theorem pushHistory_ops (s : ControllerState) (op : Operator) :
    (pushHistory s op).operators = s.operators := rfl

theorem pushHistory_fast (s : ControllerState) (op : Operator) :
    (pushHistory s op).fastOperators = s.fastOperators := rfl

theorem pushHistory_wop (s : ControllerState) (op : Operator) :
    (pushHistory s op).wop = s.wop := rfl

/-- C9: when `Dispatch` observes an operator in status SUCCESS — over a
well-formed running map, with no running or waiting alias of the operator's
id and the operator not already in the fast cache — it pushes the operator's
step history, removes the operator from the running map (burying it),
invokes `PromoteWaitingOperator`, and the `fastOperators` cache afterwards
contains the operator if and only if its running time is below
`FastOperatorFinishTime`. -/
theorem C9_dispatchSuccess (s : ControllerState) (r : CRegion) (source : String) (now : ℕ)
    (op : Operator)
    (hmap : lookupA r.rid s.operators = some op)
    (hrid : op.regionID = r.rid)
    (hsucc : ((opCheck s op r now).1).getStatus op = OpStatus.SUCCESS)
    (hwf : opsWF s)
    (hno0 : ∀ rid2 v, rid2 ≠ r.rid → lookupA rid2 s.operators = some v → op.opId ≠ v.opId)
    (hwop : ∀ w ∈ s.wop, op.opId ≠ w.opId)
    (hfast : lookupA r.rid s.fastOperators ≠ some op.opId) :
    (Dispatch s r source now =
      (if now - (s.getMut op.opId).startTime < FastOperatorFinishTime then
        pushFastOperator
          (PromoteWaitingOperator
            (RemoveOperator (pushHistory ((opCheck s op r now).1) op) op).1 now) op
       else
        PromoteWaitingOperator
          (RemoveOperator (pushHistory ((opCheck s op r now).1) op) op).1 now)) ∧
    (Dispatch s r source now).histories =
      op.histRecs.foldl (fun acc h => h :: acc) s.histories ∧
    opAbsent op.opId (Dispatch s r source now) ∧
    (lookupA r.rid (Dispatch s r source now).fastOperators = some op.opId ↔
      now - (s.getMut op.opId).startTime < FastOperatorFinishTime) := by
  have hops2 : (pushHistory ((opCheck s op r now).1) op).operators = s.operators := by
    rw [pushHistory_ops, opCheck_ops]
  have hlk2 : lookupA op.regionID (pushHistory ((opCheck s op r now).1) op).operators
      = some op := by
    rw [hops2, hrid]
    exact hmap
  have hrm : removeOperatorLocked (pushHistory ((opCheck s op r now).1) op) op =
      ({ pushHistory ((opCheck s op r now).1) op with
          operators := delA op.regionID (pushHistory ((opCheck s op r now).1) op).operators },
        true) :=
    removeOperatorLocked_del hlk2 rfl
  have hp2 : (RemoveOperator (pushHistory ((opCheck s op r now).1) op) op).2 = true := by
    rw [RemoveOperator, hrm]
    rfl
  have hst2 : (pushHistory ((opCheck s op r now).1) op).getStatus op = OpStatus.SUCCESS := hsucc
  have hend : IsEndStatus ((pushHistory ((opCheck s op r now).1) op).getStatus op) = true := by
    rw [hst2]
    rfl
  have hmuts_p : ((RemoveOperator (pushHistory ((opCheck s op r now).1) op) op).1).muts
      = ((opCheck s op r now).1).muts := RemoveOperator_muts_end hend
  have hops_p : ((RemoveOperator (pushHistory ((opCheck s op r now).1) op) op).1).operators
      = delA r.rid s.operators := by
    rw [RemoveOperator_ops, hrm]
    show delA op.regionID (pushHistory ((opCheck s op r now).1) op).operators = _
    rw [hops2, hrid]
  have hwf_p : opsWF ((RemoveOperator (pushHistory ((opCheck s op r now).1) op) op).1) := by
    constructor
    · intro rid v hv
      rw [hops_p] at hv
      exact hwf.1 rid v (lookup_delA_some hwf.2 hv)
    · rw [hops_p]
      exact nodup_delA r.rid hwf.2
  have hno_p : opAbsent op.opId ((RemoveOperator (pushHistory ((opCheck s op r now).1) op) op).1) := by
    intro rid v hv
    rw [hops_p] at hv
    by_cases hr2 : rid = r.rid
    · subst hr2
      rw [lookupA_delA_self r.rid hwf.2] at hv
      exact absurd hv (by simp)
    · exact hno0 rid v hr2 (lookup_delA_some hwf.2 hv)
  have hwop_p : ∀ w ∈ ((RemoveOperator (pushHistory ((opCheck s op r now).1) op) op).1).wop,
      op.opId ≠ w.opId := by
    intro w hw2
    rw [RemoveOperator_wop, pushHistory_wop, opCheck_wop] at hw2
    exact hwop w hw2
  obtain ⟨pf, ph, pmut⟩ :=
    promote_pres ((RemoveOperator (pushHistory ((opCheck s op r now).1) op) op).1) now hwop_p hwf_p
  obtain ⟨pm, pabs⟩ := pmut hno_p
  have hstart :
      ((PromoteWaitingOperator
          ((RemoveOperator (pushHistory ((opCheck s op r now).1) op) op).1) now).getMut
        op.opId).startTime = ((s.getMut op.opId).startTime) := by
    rw [pm, getMut_muts_eq hmuts_p, opCheck_startTime]
  have hD : Dispatch s r source now =
      (if now - (s.getMut op.opId).startTime < FastOperatorFinishTime then
        pushFastOperator
          (PromoteWaitingOperator
            (RemoveOperator (pushHistory ((opCheck s op r now).1) op) op).1 now) op
       else
        PromoteWaitingOperator
          (RemoveOperator (pushHistory ((opCheck s op r now).1) op) op).1 now) := by
    simp only [Dispatch]
    rw [hmap]
    dsimp only
    rw [hsucc]
    dsimp only
    rw [hp2]
    simp only [eq_self_iff_true, if_true]
    rw [hstart]
  refine ⟨hD, ?_, ?_, ?_⟩
  · rw [hD]
    have hh4 : (PromoteWaitingOperator
        ((RemoveOperator (pushHistory ((opCheck s op r now).1) op) op).1) now).histories
        = op.histRecs.foldl (fun acc h => h :: acc) s.histories := by
      rw [ph, RemoveOperator_hist]
      show (pushHistory ((opCheck s op r now).1) op).histories = _
      rw [pushHistory]
      show op.histRecs.foldl (fun acc h => h :: acc) ((opCheck s op r now).1).histories = _
      rw [opCheck_hist]
    split
    · exact hh4
    · exact hh4
  · rw [hD]
    split
    · exact opAbsent_of_ops_eq rfl pabs
    · exact pabs
  · rw [hD]
    have hf4 : (PromoteWaitingOperator
        ((RemoveOperator (pushHistory ((opCheck s op r now).1) op) op).1) now).fastOperators
        = s.fastOperators := by
      rw [pf, RemoveOperator_fast, pushHistory_fast, opCheck_fast]
    split
    case isTrue hc =>
      simp only [pushFastOperator]
      constructor
      · intro _
        exact hc
      · intro _
        show lookupA r.rid (setA op.regionID op.opId _) = some op.opId
        rw [← hrid]
        exact lookupA_setA_self op.regionID op.opId _
    case isFalse hc =>
      rw [hf4]
      constructor
      · intro hcontra
        exact absurd hcontra hfast
      · intro hcontra
        exact absurd hcontra hc

def step9 : OpStep := { sid := 0, fastKind := false, confChange := false }

/-- A one-step operator with history records, running in region 7. -/
def op9 : Operator :=
  { opId := 50, regionID := 7, desc := "d", kindMerge := false, priorityLevel := 0,
    epochVer := 0, epochConfVer := 0, steps := [step9], timeout := 1000, createTime := 0,
    histRecs := [100, 101], influence := [] }

/-- Region 7's heartbeat state: the single step is finished. -/
def reg9 : CRegion := { rid := 7, ver := 0, confVer := 0, finishedSteps := [0], badSteps := [] }

def cluster9 : Cluster := { regions := [(7, reg9)], stores := [], maxWaiting := 5 }

/-- A controller running exactly `op9` (status STARTED since time 0). -/
def s9 : ControllerState :=
  { initState cluster9 with
    operators := [(7, op9)]
    muts := [(50, { status := .STARTED, startTime := 0, currentStep := 0 })] }

theorem C9_witness :
    (lookupA reg9.rid s9.operators = some op9 ∧
      op9.regionID = reg9.rid ∧
      ((opCheck s9 op9 reg9 5).1).getStatus op9 = OpStatus.SUCCESS ∧
      opsWF s9 ∧
      (∀ rid2 v, rid2 ≠ reg9.rid → lookupA rid2 s9.operators = some v → op9.opId ≠ v.opId) ∧
      (∀ w ∈ s9.wop, op9.opId ≠ w.opId) ∧
      lookupA reg9.rid s9.fastOperators ≠ some op9.opId) ∧
    (Dispatch s9 reg9 DispatchFromHeartBeat 5).histories =
      op9.histRecs.foldl (fun acc h => h :: acc) s9.histories ∧
    (lookupA reg9.rid (Dispatch s9 reg9 DispatchFromHeartBeat 5).fastOperators = some op9.opId ↔
      5 - (s9.getMut op9.opId).startTime < FastOperatorFinishTime) := by
  have hno0 : ∀ rid2 v, rid2 ≠ reg9.rid → lookupA rid2 s9.operators = some v →
      op9.opId ≠ v.opId := by
    intro rid2 v hne hv
    exfalso
    apply hne
    have h7 : (7 : ℕ) = rid2 := by
      by_contra h7
      simp [s9, initState, lookupA, h7] at hv
    show rid2 = reg9.rid
    rw [← h7]
    decide
  have hcons : ∀ rid v, lookupA rid s9.operators = some v → v.regionID = rid := by
    intro rid v hv
    by_cases h7 : (7 : ℕ) = rid
    · rw [← h7] at hv ⊢
      simp [s9, initState, lookupA] at hv
      rw [← hv]
      decide
    · exfalso
      simp [s9, initState, lookupA, h7] at hv
  have hwop9 : ∀ w ∈ s9.wop, op9.opId ≠ w.opId := by
    simp [s9, initState]
  obtain ⟨_, hh, _, hiff⟩ :=
    C9_dispatchSuccess s9 reg9 DispatchFromHeartBeat 5 op9 (by decide) (by decide) (by decide)
      ⟨hcons, by decide⟩ hno0 hwop9 (by decide)
  exact ⟨⟨by decide, by decide, by decide, ⟨hcons, by decide⟩, hno0, hwop9, by decide⟩, hh, hiff⟩

theorem cancelOp_records (s : ControllerState) (op : Operator) :
    ((cancelOp s op).1).opRecords = s.opRecords := by
  simp only [cancelOp]
  split <;> rfl

theorem buryOperator_rec_ne (s : ControllerState) (op : Operator) {rid2 : ℕ}
    (h : rid2 ≠ op.regionID) :
    lookupA rid2 (buryOperator s op).opRecords = lookupA rid2 s.opRecords := by
  simp only [buryOperator]
  split
  · exact lookupA_setA_ne _ h _
  · rw [lookupA_setA_ne _ h, cancelOp_records]

theorem cancelBury_rec_ne (s : ControllerState) (op : Operator) {rid2 : ℕ}
    (h : rid2 ≠ op.regionID) :
    lookupA rid2 (cancelBury s op).opRecords = lookupA rid2 s.opRecords := by
  rw [cancelBury, buryOperator_rec_ne _ _ h, cancelOp_records]

theorem getStatus_of_mut_eq {s s' : ControllerState} {u : Operator}
    (h : s'.getMut u.opId = s.getMut u.opId) : s'.getStatus u = s.getStatus u := by
  show (s'.getMut u.opId).status = (s.getMut u.opId).status
  rw [h]

/-- C10: when the admission loop of `AddWaitingOperator` rejects the unit at
the head of the remaining argument list — an orphan merge operator, a
mis-paired merge operator, or a `checkAddOperator` failure — the call
returns at once: the admitted count is exactly what was admitted before the
unit, the waiting bucket is left as it was (no later operator is enqueued),
and every operator whose id and region are outside the rejected unit keeps
its status and its `opRecords` entry (no later operator is cancelled or
buried). -/
theorem C10_earlyReturn (s : ControllerState) (now : ℕ) (op : Operator) (rest : List Operator)
    (added : ℕ)
    (hrej : if op.kindMerge then
        (match rest with
         | [] => True
         | op2 :: _ => ¬(op2.kindMerge = true) ∨ ¬(checkAddOperator s now [op] = true))
      else ¬(checkAddOperator s now [op] = true)) :
    (addWaitingLoop now s (op :: rest) added).2.2 = false ∧
    (addWaitingLoop now s (op :: rest) added).2.1 = added ∧
    ((addWaitingLoop now s (op :: rest) added).1).wop = s.wop ∧
    (∀ u : Operator,
      (∀ b ∈ (if op.kindMerge then op :: rest.take 1 else [op]), u.opId ≠ b.opId) →
      ((addWaitingLoop now s (op :: rest) added).1).getStatus u = s.getStatus u) ∧
    (∀ rid2 : ℕ,
      (∀ b ∈ (if op.kindMerge then op :: rest.take 1 else [op]), rid2 ≠ b.regionID) →
      lookupA rid2 ((addWaitingLoop now s (op :: rest) added).1).opRecords
        = lookupA rid2 s.opRecords) ∧
    AddWaitingOperator s now (op :: rest) =
      ((addWaitingLoop now s (op :: rest) 0).1, (addWaitingLoop now s (op :: rest) 0).2.1) := by
  have main : ∀ a : ℕ,
      (addWaitingLoop now s (op :: rest) a).2.2 = false ∧
      (addWaitingLoop now s (op :: rest) a).2.1 = a ∧
      ((addWaitingLoop now s (op :: rest) a).1).wop = s.wop ∧
      (∀ u : Operator,
        (∀ b ∈ (if op.kindMerge then op :: rest.take 1 else [op]), u.opId ≠ b.opId) →
        ((addWaitingLoop now s (op :: rest) a).1).getStatus u = s.getStatus u) ∧
      (∀ rid2 : ℕ,
        (∀ b ∈ (if op.kindMerge then op :: rest.take 1 else [op]), rid2 ≠ b.regionID) →
        lookupA rid2 ((addWaitingLoop now s (op :: rest) a).1).opRecords
          = lookupA rid2 s.opRecords) := by
    intro a
    by_cases hm : op.kindMerge
    · rw [if_pos hm] at hrej
      cases rest with
      | nil =>
        rw [addWaitingLoop.eq_def]
        simp [hm]
      | cons op2 rest2 =>
        by_cases hm2 : op2.kindMerge
        case neg =>
          rw [addWaitingLoop.eq_def]
          simp only [hm, if_true]
          rw [if_pos (by simpa using hm2)]
          simp
        case pos =>
          have hchk : ¬(checkAddOperator s now [op] = true) := by
            rcases hrej with hrej | hrej
            · exact absurd hm2 hrej
            · exact hrej
          rw [addWaitingLoop.eq_def]
          simp only [hm, if_true]
          rw [if_neg (by simpa using hm2), if_pos (by simpa using hchk)]
          refine ⟨rfl, rfl, by rw [cancelBury_wop, cancelBury_wop], ?_, ?_⟩
          · intro u hu
            have h1 : u.opId ≠ op.opId := hu op (by simp [hm])
            have h2 : u.opId ≠ op2.opId := hu op2 (by simp [hm])
            exact getStatus_of_mut_eq
              ((cancelBury_mut_ne _ _ h2).trans (cancelBury_mut_ne _ _ h1))
          · intro rid2 hr
            have h1 : rid2 ≠ op.regionID := hr op (by simp [hm])
            have h2 : rid2 ≠ op2.regionID := hr op2 (by simp [hm])
            rw [cancelBury_rec_ne _ _ h2, cancelBury_rec_ne _ _ h1]
    · rw [if_neg hm] at hrej
      rw [addWaitingLoop.eq_def]
      simp only [hm, if_false, Bool.false_eq_true]
      rw [if_pos (by simpa using hrej)]
      refine ⟨rfl, rfl, cancelBury_wop _ _, ?_, ?_⟩
      · intro u hu
        have h1 : u.opId ≠ op.opId := hu op (by simp [hm])
        exact getStatus_of_mut_eq (cancelBury_mut_ne _ _ h1)
      · intro rid2 hr
        have h1 : rid2 ≠ op.regionID := hr op (by simp [hm])
        exact cancelBury_rec_ne _ _ h1
  obtain ⟨hdone, hadd, hwop2, hstat, hrec⟩ := main added
  refine ⟨hdone, hadd, hwop2, hstat, hrec, ?_⟩
  rw [AddWaitingOperator]
  rw [(main 0).1]
  simp

/-- A non-merge operator for an absent region: `checkAddOperator` rejects it. -/
def op10 : Operator :=
  { opId := 60, regionID := 42, desc := "x", kindMerge := false, priorityLevel := 0,
    epochVer := 0, epochConfVer := 0, steps := [], timeout := 0, createTime := 0,
    histRecs := [], influence := [] }

/-- An operator listed after the rejected one. -/
def later10 : Operator := { op10 with opId := 61, regionID := 43 }

def s10 : ControllerState := initState emptyCluster

theorem C10_witness :
    (¬(checkAddOperator s10 0 [op10] = true)) ∧
    (addWaitingLoop 0 s10 [op10, later10] 0).2.2 = false ∧
    (addWaitingLoop 0 s10 [op10, later10] 0).2.1 = 0 ∧
    ((addWaitingLoop 0 s10 [op10, later10] 0).1).wop = s10.wop ∧
    ((addWaitingLoop 0 s10 [op10, later10] 0).1).getStatus later10 = s10.getStatus later10 ∧
    lookupA later10.regionID ((addWaitingLoop 0 s10 [op10, later10] 0).1).opRecords
      = lookupA later10.regionID s10.opRecords ∧
    AddWaitingOperator s10 0 [op10, later10] =
      ((addWaitingLoop 0 s10 [op10, later10] 0).1, (addWaitingLoop 0 s10 [op10, later10] 0).2.1) := by
  have happ := C10_earlyReturn s10 0 op10 [later10] 0
    (by exact (by decide : ¬(checkAddOperator s10 0 [op10] = true)))
  exact ⟨by decide, happ.1, happ.2.1, happ.2.2.1,
    happ.2.2.2.1 later10 (by show ∀ b ∈ [op10], later10.opId ≠ b.opId; decide),
    happ.2.2.2.2.1 later10.regionID (by show ∀ b ∈ [op10], later10.regionID ≠ b.regionID; decide),
    happ.2.2.2.2.2⟩

theorem lookup_setA_some2 {κ β : Type} [DecidableEq κ] {k rid : κ} {l : List (κ × β)} {v u : β}
    (h : lookupA rid (setA k v l) = some u) :
    (rid = k ∧ u = v) ∨ (rid ≠ k ∧ lookupA rid l = some u) := by
  by_cases hk : rid = k
  · subst hk
    rw [lookupA_setA_self] at h
    exact Or.inl ⟨rfl, (Option.some_inj.mp h).symm⟩
  · exact Or.inr ⟨hk, by rwa [lookupA_setA_ne v hk] at h⟩

theorem checkAdd_all {s : ControllerState} {now : ℕ} {ops : List Operator}
    (h : checkAddOperator s now ops = true) : ∀ u ∈ ops, checkAddOne s u = true := by
  rw [checkAddOperator, Bool.and_eq_true, List.all_eq_true] at h
  exact h.1

theorem checkAddOne_higher {s : ControllerState} {u old : Operator}
    (h : checkAddOne s u = true) (hlk : lookupA u.regionID s.operators = some old) :
    isHigherPriorityOperator u old = true := by
  rw [checkAddOne] at h
  cases hr : lookupA u.regionID s.cluster.regions with
  | none => rw [hr] at h; exact absurd h (by simp)
  | some region =>
    rw [hr, hlk] at h
    simp only [Bool.and_eq_true] at h
    exact h.1.1.2

theorem checkAddOne_created {s : ControllerState} {u : Operator}
    (h : checkAddOne s u = true) : s.getStatus u = OpStatus.CREATED := by
  rw [checkAddOne] at h
  cases hr : lookupA u.regionID s.cluster.regions with
  | none => rw [hr] at h; exact absurd h (by simp)
  | some region =>
    rw [hr] at h
    simp only [Bool.and_eq_true, decide_eq_true_eq] at h
    exact h.1.2

theorem higher_lt {u old : Operator} (h : isHigherPriorityOperator u old = true) :
    old.priorityLevel < u.priorityLevel := by
  simpa [isHigherPriorityOperator] using h

/-- `addOperatorLocked` leaves untouched the mutable state of any operator id
that is neither the installed operator's nor the displaced victim's. -/
theorem aol_mut_other (s : ControllerState) (now : ℕ) (u : Operator) {oid : ℕ}
    (h : oid ≠ u.opId) (hwf : opsWF s)
    (hvic : ∀ v, lookupA u.regionID s.operators = some v → oid ≠ v.opId) :
    ((addOperatorLocked s now u).1).getMut oid = s.getMut oid := by
  cases hlk : lookupA u.regionID s.operators with
  | none => exact (addOperatorLocked_pres0 s now u h hlk).2.2.2.1
  | some old =>
    have hreg : old.regionID = u.regionID := hwf.1 _ _ hlk
    rw [addOperatorLocked_victim now hlk hreg hwf.2]
    have hvlk : lookupA u.regionID
        (buryOperator (replaceOp (removeOperatorLocked s old).1 old).1 old).operators = none := by
      rw [buryOperator_ops, replaceOp_ops,
        removeOperatorLocked_del (by rw [hreg]; exact hlk) rfl]
      show lookupA u.regionID (delA old.regionID s.operators) = none
      rw [hreg]
      exact lookupA_delA_self _ hwf.2
    exact ((addOperatorLocked_pres0 _ now u h hvlk).2.2.2.1).trans
      (victim_mut_ne s old (hvic old hlk))

/-- A successful `addOperatorLocked` leaves the running map with the new
operator at its region, over either the old map or the old map minus the
displaced victim. -/
theorem aol_ops_success (s : ControllerState) (now : ℕ) (u : Operator) (hwf : opsWF s)
    (hflag : (addOperatorLocked s now u).2 = true) :
    ((addOperatorLocked s now u).1).operators = setA u.regionID u s.operators ∨
    ((addOperatorLocked s now u).1).operators
      = setA u.regionID u (delA u.regionID s.operators) := by
  cases hlk : lookupA u.regionID s.operators with
  | none =>
    rw [addOperatorLocked_none now hlk] at hflag ⊢
    rcases startOp_cases s u now with h2 | h2 <;> rw [h2] at hflag ⊢
    · left
      dsimp only
      simp only [eq_self_iff_true, if_true]
      repeat' split
      all_goals simp [SendScheduleCommand, opCheck_ops, takeLoop_ops, ControllerState.setMut]
    · exact absurd hflag (by simp)
  | some old =>
    have hreg : old.regionID = u.regionID := hwf.1 _ _ hlk
    rw [addOperatorLocked_victim now hlk hreg hwf.2] at hflag ⊢
    have hvops : (buryOperator (replaceOp (removeOperatorLocked s old).1 old).1 old).operators
        = delA u.regionID s.operators := by
      rw [buryOperator_ops, replaceOp_ops,
        removeOperatorLocked_del (by rw [hreg]; exact hlk) rfl]
      rw [hreg]
    have hvlk : lookupA u.regionID
        (buryOperator (replaceOp (removeOperatorLocked s old).1 old).1 old).operators = none := by
      rw [hvops]
      exact lookupA_delA_self _ hwf.2
    rw [addOperatorLocked_none now hvlk] at hflag ⊢
    rcases startOp_cases (buryOperator (replaceOp (removeOperatorLocked s old).1 old).1 old) u now
      with h2 | h2 <;> rw [h2] at hflag ⊢
    · right
      dsimp only
      simp only [eq_self_iff_true, if_true]
      repeat' split
      all_goals
        simp [SendScheduleCommand, opCheck_ops, takeLoop_ops, ControllerState.setMut, hvops]
    · exact absurd hflag (by simp)

/-- The displacement inside a single `addOperatorLocked`: a STARTED running
operator for the new operator's region ends REPLACED. -/
theorem aol_replaces (s : ControllerState) (now : ℕ) (u old : Operator)
    (hlk : lookupA u.regionID s.operators = some old)
    (hstart : s.getStatus old = OpStatus.STARTED)
    (hne : old.opId ≠ u.opId)
    (hwf : opsWF s) :
    ((addOperatorLocked s now u).1).getStatus old = OpStatus.REPLACED := by
  have hreg : old.regionID = u.regionID := hwf.1 _ _ hlk
  rw [addOperatorLocked_victim now hlk hreg hwf.2]
  have hst1 : ((removeOperatorLocked s old).1).getStatus old = OpStatus.STARTED :=
    (getStatus_of_mut_eq (getMut_muts_eq (removeOperatorLocked_muts s old) _)).trans hstart
  have hrepl : replaceOp (removeOperatorLocked s old).1 old
      = (((removeOperatorLocked s old).1).setMut old.opId
          { ((removeOperatorLocked s old).1).getMut old.opId with status := .REPLACED }, true) := by
    have hc : ((removeOperatorLocked s old).1.getMut old.opId).status = OpStatus.STARTED := hst1
    rw [replaceOp, if_pos hc]
  have hst2 : ((replaceOp (removeOperatorLocked s old).1 old).1).getStatus old
      = OpStatus.REPLACED := by
    rw [hrepl]
    show ((((removeOperatorLocked s old).1).setMut old.opId _).getMut old.opId).status = _
    rw [getMut_setMut_self]
  have hend2 : IsEndStatus (((replaceOp (removeOperatorLocked s old).1 old).1).getStatus old)
      = true := by
    rw [hst2]
    rfl
  have hbury : (buryOperator (replaceOp (removeOperatorLocked s old).1 old).1 old).getStatus old
      = OpStatus.REPLACED := by
    rw [buryOperator_end hend2]
    exact hst2
  have hvlk : lookupA u.regionID
      (buryOperator (replaceOp (removeOperatorLocked s old).1 old).1 old).operators = none := by
    rw [buryOperator_ops, replaceOp_ops,
      removeOperatorLocked_del (by rw [hreg]; exact hlk) rfl]
    show lookupA u.regionID (delA old.regionID s.operators) = none
    rw [hreg]
    exact lookupA_delA_self _ hwf.2
  exact (getStatus_of_mut_eq
    ((addOperatorLocked_pres0 _ now u hne hvlk).2.2.2.1)).trans hbury

/-- Through a successful installation run, a STARTED running operator at the
region of one of the installed operators ends REPLACED, and no later step of
the run revives it. -/
theorem installOps_replaced (now : ℕ) (old : Operator) :
    ∀ (l : List Operator) (s : ControllerState) (u : Operator),
      u ∈ l →
      lookupA u.regionID s.operators = some old →
      s.getStatus old = OpStatus.STARTED →
      opsWF s →
      (∀ rid2 v, rid2 ≠ u.regionID → lookupA rid2 s.operators = some v → v.opId ≠ old.opId) →
      (∀ w ∈ l, w.opId ≠ old.opId) →
      (l.map Operator.regionID).Nodup →
      (installOps now s l).2 = true →
      ((installOps now s l).1).getStatus old = OpStatus.REPLACED := by
  intro l
  induction l with
  | nil => intro s u hu; exact absurd hu (List.not_mem_nil u)
  | cons w rest ih =>
    intro s u hu hlk hstart hwf honly hne hreglist hflag
    simp only [installOps] at hflag ⊢
    by_cases hfw : (addOperatorLocked s now w).2 = true
    · rw [if_pos hfw] at hflag ⊢
      have hwf' : opsWF (addOperatorLocked s now w).1 :=
        (addOperatorLocked_step s now w ((hne w (by simp)).symm) hwf).2.2.2.1
      rcases List.mem_cons.mp hu with hueq | hu2
      · subst hueq
        have hflip := aol_replaces s now u old hlk hstart ((hne u (by simp)).symm) hwf
        have habs : opAbsent old.opId (addOperatorLocked s now u).1 := by
          intro rid v hv
          rcases aol_ops_success s now u hwf hfw with hops | hops <;> rw [hops] at hv
          · rcases lookup_setA_some2 hv with ⟨_, hvu⟩ | ⟨hr, hv'⟩
            · rw [hvu]; exact (hne u (by simp)).symm
            · exact fun hEq => (honly rid v hr hv') hEq.symm
          · rcases lookup_setA_some2 hv with ⟨_, hvu⟩ | ⟨hr, hv'⟩
            · rw [hvu]; exact (hne u (by simp)).symm
            · exact fun hEq => (honly rid v hr (lookup_delA_some hwf.2 hv')) hEq.symm
        obtain ⟨_, _, _, _, hmut2⟩ := installOps_pres now rest (addOperatorLocked s now u).1
          (fun v hv => (hne v (by simp [hv])).symm) hwf'
        obtain ⟨hm2, _⟩ := hmut2 habs
        exact (getStatus_of_mut_eq hm2).trans hflip
      · have hrne : u.regionID ≠ w.regionID := by
          have h1 : w.regionID ∉ rest.map Operator.regionID := by
            simpa using (List.nodup_cons.mp hreglist).1
          intro hEq
          exact h1 (hEq ▸ List.mem_map_of_mem Operator.regionID hu2)
        have hlk' : lookupA u.regionID ((addOperatorLocked s now w).1).operators = some old := by
          rcases aol_ops_success s now w hwf hfw with hops | hops <;> rw [hops]
          · rw [lookupA_setA_ne _ hrne]; exact hlk
          · rw [lookupA_setA_ne _ hrne, lookupA_delA_ne hrne]; exact hlk
        have hstart' : ((addOperatorLocked s now w).1).getStatus old = OpStatus.STARTED := by
          have hvic : ∀ v, lookupA w.regionID s.operators = some v → old.opId ≠ v.opId := by
            intro v hv
            exact (honly w.regionID v (fun hEq => hrne hEq.symm) hv).symm
          exact (getStatus_of_mut_eq
            (aol_mut_other s now w ((hne w (by simp)).symm) hwf hvic)).trans hstart
        have honly' : ∀ rid2 v, rid2 ≠ u.regionID →
            lookupA rid2 ((addOperatorLocked s now w).1).operators = some v →
            v.opId ≠ old.opId := by
          intro rid2 v hr2 hv
          rcases aol_ops_success s now w hwf hfw with hops | hops <;> rw [hops] at hv
          · rcases lookup_setA_some2 hv with ⟨_, hvw⟩ | ⟨_, hv'⟩
            · rw [hvw]; exact hne w (by simp)
            · exact honly rid2 v hr2 hv'
          · rcases lookup_setA_some2 hv with ⟨_, hvw⟩ | ⟨_, hv'⟩
            · rw [hvw]; exact hne w (by simp)
            · exact honly rid2 v hr2 (lookup_delA_some hwf.2 hv')
        exact ih (addOperatorLocked s now w).1 u hu2 hlk' hstart' hwf' honly'
          (fun v hv => hne v (by simp [hv])) (List.nodup_cons.mp hreglist).2 hflag
    · rw [if_neg hfw] at hflag
      exact absurd hflag (by simp)

/-- The promotion selection loop admits a unit only after `checkAddOperator`
passes at the admission state, whose running map is the input's: any running
operator at an admitted operator's region is of strictly lower priority. -/
theorem promoteLoopF_priority (now : ℕ) :
    ∀ (fuel : ℕ) (s : ControllerState) (u : Operator), u ∈ (promoteLoopF now fuel s).2 →
      ∀ old, lookupA u.regionID ((promoteLoopF now fuel s).1).operators = some old →
        isHigherPriorityOperator u old = true := by
  intro fuel
  induction fuel with
  | zero => intro s u hu; simp [promoteLoopF] at hu
  | succ fuel ih =>
    intro s u hu old hold
    simp only [promoteLoopF] at hu hold
    cases hw : s.wop with
    | nil => rw [hw] at hu; simp at hu
    | cons op rest =>
      rw [hw] at hu hold
      dsimp only at hu hold
      by_cases hc : (exceedStoreLimitLocked { s with wop := (takeUnit op rest).2 }
            (takeUnit op rest).1
          || !(checkAddOperator { s with wop := (takeUnit op rest).2 } now
            (takeUnit op rest).1)) = true
      · rw [if_pos hc] at hu hold
        exact ih _ u hu old hold
      · rw [if_neg hc] at hu hold
        have h2 : (exceedStoreLimitLocked { s with wop := (takeUnit op rest).2 }
              (takeUnit op rest).1
            || !(checkAddOperator { s with wop := (takeUnit op rest).2 } now
              (takeUnit op rest).1)) = false := Bool.eq_false_iff.mpr hc
        have hchk : checkAddOperator { s with wop := (takeUnit op rest).2 } now
            (takeUnit op rest).1 = true := by
          simpa using (Bool.or_eq_false_iff.mp h2).2
        have h1 := checkAdd_all hchk u hu
        have hold2 : lookupA u.regionID
            ({ s with wop := (takeUnit op rest).2 } : ControllerState).operators = some old := hold
        exact checkAddOne_higher h1 hold2

/-- C7: whenever direct admission (`AddOperator`) or promotion succeeds for a
region that already has a running (STARTED) operator, the admitted operator
for that region has strictly higher priority than the displaced one, and the
displaced operator ends with terminal status REPLACED. Stated over
well-formed running maps with no foreign alias of the displaced operator's
id (Go pointer identity), and with the installed operators' regions
pairwise distinct. -/
theorem C7_priorityReplacement (s : ControllerState) (now : ℕ) :
    (∀ (ops : List Operator) (u old : Operator),
      u ∈ ops →
      lookupA u.regionID s.operators = some old →
      s.getStatus old = OpStatus.STARTED →
      opsWF s →
      (∀ rid2 v, rid2 ≠ u.regionID → lookupA rid2 s.operators = some v → v.opId ≠ old.opId) →
      (ops.map Operator.regionID).Nodup →
      (AddOperator s now ops).2 = true →
      old.priorityLevel < u.priorityLevel ∧
      ((AddOperator s now ops).1).getStatus old = OpStatus.REPLACED) ∧
    (∀ (u old : Operator),
      u ∈ (promoteLoop s now).2 →
      lookupA u.regionID s.operators = some old →
      s.getStatus old = OpStatus.STARTED →
      opsWF s →
      (∀ rid2 v, rid2 ≠ u.regionID → lookupA rid2 s.operators = some v → v.opId ≠ old.opId) →
      (∀ w ∈ s.wop, w.opId ≠ old.opId) →
      (((promoteLoop s now).2).map Operator.regionID).Nodup →
      (installOps now (promoteLoop s now).1 (promoteLoop s now).2).2 = true →
      old.priorityLevel < u.priorityLevel ∧
      (PromoteWaitingOperator s now).getStatus old = OpStatus.REPLACED) := by
  constructor
  · intro ops u old hu hlk hstart hwf honly hregions hsucc
    by_cases hcond : (exceedStoreLimitLocked s ops || !(checkAddOperator s now ops)) = true
    · rw [AddOperator, if_pos hcond] at hsucc
      exact absurd hsucc (by simp)
    · have hA : AddOperator s now ops = installOps now s ops := by
        rw [AddOperator, if_neg hcond]
      rw [hA] at hsucc ⊢
      have hchk : checkAddOperator s now ops = true := by
        simpa using (Bool.or_eq_false_iff.mp (Bool.eq_false_iff.mpr hcond)).2
      have hne : ∀ w ∈ ops, w.opId ≠ old.opId := by
        intro w hw hEq
        have hc := checkAddOne_created (checkAdd_all hchk w hw)
        have hsame : s.getStatus w = s.getStatus old := by
          show (s.getMut w.opId).status = (s.getMut old.opId).status
          rw [hEq]
        rw [hc, hstart] at hsame
        exact OpStatus.noConfusion hsame
      exact ⟨higher_lt (checkAddOne_higher (checkAdd_all hchk u hu) hlk),
        installOps_replaced now old ops s u hu hlk hstart hwf honly hne hregions hsucc⟩
  · intro u old hu hlk hstart hwf honly hwopold hregions hflag
    obtain ⟨_, _, ho1, hm1, hsub⟩ :=
      promoteLoopF_pres now s.wop.length s (fun w hw => (hwopold w hw).symm)
    have hlk1 : lookupA u.regionID ((promoteLoopF now s.wop.length s).1).operators = some old := by
      rw [ho1]
      exact hlk
    have hstart1 : ((promoteLoopF now s.wop.length s).1).getStatus old = OpStatus.STARTED :=
      (getStatus_of_mut_eq hm1).trans hstart
    have hwf1 := opsWF_of_ops_eq ho1 hwf
    have honly1 : ∀ rid2 v, rid2 ≠ u.regionID →
        lookupA rid2 ((promoteLoopF now s.wop.length s).1).operators = some v →
        v.opId ≠ old.opId := by
      intro rid2 v hr hv
      rw [ho1] at hv
      exact honly rid2 v hr hv
    have hne1 : ∀ w ∈ (promoteLoopF now s.wop.length s).2, w.opId ≠ old.opId := fun w hw =>
      hwopold w (hsub w hw)
    exact ⟨higher_lt (promoteLoopF_priority now s.wop.length s u hu old hlk1),
      installOps_replaced now old (promoteLoopF now s.wop.length s).2
        (promoteLoopF now s.wop.length s).1 u hu hlk1 hstart1 hwf1 honly1 hne1 hregions hflag⟩

/-- A STARTED operator running in region 8 at priority 0. -/
def old7 : Operator :=
  { opId := 70, regionID := 8, desc := "old", kindMerge := false, priorityLevel := 0,
    epochVer := 0, epochConfVer := 0, steps := [], timeout := 1000, createTime := 0,
    histRecs := [], influence := [] }

/-- A fresh operator for region 8 at priority 2. -/
def u7 : Operator :=
  { opId := 71, regionID := 8, desc := "new", kindMerge := false, priorityLevel := 2,
    epochVer := 0, epochConfVer := 0, steps := [step9], timeout := 1000, createTime := 0,
    histRecs := [], influence := [] }

def reg7 : CRegion := { rid := 8, ver := 0, confVer := 0, finishedSteps := [], badSteps := [] }

def cluster7 : Cluster := { regions := [(8, reg7)], stores := [], maxWaiting := 5 }

def s7 : ControllerState :=
  { initState cluster7 with
    operators := [(8, old7)]
    muts := [(70, { status := .STARTED, startTime := 0, currentStep := 0 })] }

/-- A STARTED operator running in region 9 at priority 0. -/
def old7b : Operator :=
  { opId := 80, regionID := 9, desc := "oldb", kindMerge := false, priorityLevel := 0,
    epochVer := 0, epochConfVer := 0, steps := [], timeout := 1000, createTime := 0,
    histRecs := [], influence := [] }

/-- A fresh waiting operator for region 9 at priority 3. -/
def u7b : Operator :=
  { opId := 81, regionID := 9, desc := "newb", kindMerge := false, priorityLevel := 3,
    epochVer := 0, epochConfVer := 0, steps := [step9], timeout := 1000, createTime := 0,
    histRecs := [], influence := [] }

def reg7b : CRegion := { rid := 9, ver := 0, confVer := 0, finishedSteps := [], badSteps := [] }

def cluster7b : Cluster := { regions := [(9, reg7b)], stores := [], maxWaiting := 5 }

def s7b : ControllerState :=
  { initState cluster7b with
    operators := [(9, old7b)]
    muts := [(80, { status := .STARTED, startTime := 0, currentStep := 0 })]
    wop := [u7b]
    wopStatus := [("newb", 1)] }

theorem C7_witness :
    (u7 ∈ [u7] ∧ lookupA u7.regionID s7.operators = some old7 ∧
      s7.getStatus old7 = OpStatus.STARTED ∧
      ([u7].map Operator.regionID).Nodup ∧
      (AddOperator s7 0 [u7]).2 = true ∧
      old7.priorityLevel < u7.priorityLevel ∧
      ((AddOperator s7 0 [u7]).1).getStatus old7 = OpStatus.REPLACED) ∧
    (u7b ∈ (promoteLoop s7b 0).2 ∧ lookupA u7b.regionID s7b.operators = some old7b ∧
      s7b.getStatus old7b = OpStatus.STARTED ∧
      (∀ w ∈ s7b.wop, w.opId ≠ old7b.opId) ∧
      (installOps 0 (promoteLoop s7b 0).1 (promoteLoop s7b 0).2).2 = true ∧
      old7b.priorityLevel < u7b.priorityLevel ∧
      (PromoteWaitingOperator s7b 0).getStatus old7b = OpStatus.REPLACED) := by
  have hcons7 : ∀ rid v, lookupA rid s7.operators = some v → v.regionID = rid := by
    intro rid v hv
    by_cases h8 : (8 : ℕ) = rid
    · rw [← h8] at hv ⊢
      simp [s7, initState, lookupA] at hv
      rw [← hv]
      decide
    · exfalso
      simp [s7, initState, lookupA, h8] at hv
  have honly7 : ∀ rid2 v, rid2 ≠ u7.regionID → lookupA rid2 s7.operators = some v →
      v.opId ≠ old7.opId := by
    intro rid2 v hr hv
    exfalso
    have h8 : (8 : ℕ) ≠ rid2 := fun hEq => hr hEq.symm
    simp [s7, initState, lookupA, h8] at hv
  have hcons7b : ∀ rid v, lookupA rid s7b.operators = some v → v.regionID = rid := by
    intro rid v hv
    by_cases h9 : (9 : ℕ) = rid
    · rw [← h9] at hv ⊢
      simp [s7b, initState, lookupA] at hv
      rw [← hv]
      decide
    · exfalso
      simp [s7b, initState, lookupA, h9] at hv
  have honly7b : ∀ rid2 v, rid2 ≠ u7b.regionID → lookupA rid2 s7b.operators = some v →
      v.opId ≠ old7b.opId := by
    intro rid2 v hr hv
    exfalso
    have h9 : (9 : ℕ) ≠ rid2 := fun hEq => hr hEq.symm
    simp [s7b, initState, lookupA, h9] at hv
  have hA := (C7_priorityReplacement s7 0).1 [u7] u7 old7 (by decide) (by decide) (by decide)
    ⟨hcons7, by decide⟩ honly7 (by decide) (by decide)
  have hB := (C7_priorityReplacement s7b 0).2 u7b old7b (by decide) (by decide) (by decide)
    ⟨hcons7b, by decide⟩ honly7b (by decide) (by decide) (by decide)
  exact ⟨⟨by decide, by decide, by decide, by decide, by decide, hA.1, hA.2⟩,
    ⟨by decide, by decide, by decide, by decide, by decide, hB.1, hB.2⟩⟩
